import Mathlib

/-!
Verification of the Omoide_Porter media-organization core.

The Python sources under `src/core` are shallowly embedded below:
`FileInfo` objects become a record structure, the object heap of one
pipeline run becomes a function `Store : Nat → FileInfo` updated at
indices (Python mutates objects in place; the indices play the role of
object identity), and stateful loops become folds threading the store.
Insertion-ordered Python dicts used for grouping become association
lists built by `upsert`, and Python's stable `list.sort` / `sorted`
become an insertion sort (stable sorting is extensionally unique, so
any stable implementation embeds `sorted` faithfully).
-/

namespace Omoide



/-! ### Generic list infrastructure -/

/-- Keys of a list in first-occurrence order (the key order of an
insertion-ordered Python dict). -/
def firstDedup {κ : Type} [DecidableEq κ] : List κ → List κ
  | [] => []
  | k :: ks => k :: (firstDedup ks).filter (fun k2 => k2 ≠ k)

/-- Append a value to the entry of key `k` in an insertion-ordered
association list, creating the entry at the end when absent.  This is
what `d[k].append(i)` after `if k not in d: d[k] = []` does to a
Python dict. -/
def upsert {κ : Type} [DecidableEq κ] : List (κ × List Nat) → κ → Nat → List (κ × List Nat)
  | [], k, i => [(k, [i])]
  | (k2, g) :: rest, k, i =>
    if k2 = k then (k2, g ++ [i]) :: rest else (k2, g) :: upsert rest k i

/-- Grouping a list of indices by a key, building an insertion-ordered
dict exactly as the Python loops do. -/
def buildGroups {κ : Type} [DecidableEq κ] (key : Nat → κ) (l : List Nat) :
    List (κ × List Nat) :=
  l.foldl (fun acc i => upsert acc (key i) i) []

/-- Declarative description of `buildGroups`: keys in first-occurrence
order, each paired with the sublist of indices having that key. -/
def groupsBy {κ : Type} [DecidableEq κ] (key : Nat → κ) (l : List Nat) :
    List (κ × List Nat) :=
  (firstDedup (l.map key)).map (fun k => (k, l.filter (fun i => key i = k)))

/-! ### Stable insertion sort

`insertBy lt x l` inserts `x` after every element `y` of `l` with
`lt y x` ("y strictly precedes x").  `sortBy` is the induced insertion
sort; it is stable, so it is extensionally the same function as
Python's `sorted` (and `list.sort`) for the same strict comparison. -/

def insertBy {α : Type} (lt : α → α → Bool) (x : α) : List α → List α
  | [] => [x]
  | y :: ys => if lt y x then y :: insertBy lt x ys else x :: y :: ys

def sortBy {α : Type} (lt : α → α → Bool) : List α → List α
  | [] => []
  | x :: xs => insertBy lt x (sortBy lt xs)

/-! ### Store updates

The Python object heap for one run: `Nat → β` with pointwise update.
A loop `for i in l: obj[i].mutate()` becomes a fold of `updStore`. -/

def updStore {β : Type} (st : Nat → β) (i : Nat) (v : β) : Nat → β :=
  fun j => if j = i then v else st j

/-! ### Decimal rendering of naturals

The rename policy builds paths with a Python f-string containing a
decimal counter; `Nat.repr` plays that role in the embedding.  We
prove `Nat.repr` injective by decoding the digit string. -/

/-- Most-significant-first decimal digit characters of `n`; the
fuel-free description of `Nat.toDigits 10 n`. -/
def decDigitsRec (n : Nat) : List Char :=
  if h : n / 10 = 0 then [Nat.digitChar (n % 10)]
  else decDigitsRec (n / 10) ++ [Nat.digitChar (n % 10)]
decreasing_by
  exact Nat.div_lt_self (by omega) (by omega)

/-! ### Datetimes

Python `datetime.datetime` values, compared lexicographically by
(year, month, day, hour, minute, second). -/

structure PyDateTime where
  year : Nat
  month : Nat
  day : Nat
  hour : Nat
  minute : Nat
  second : Nat
deriving DecidableEq

def PyDateTime.fields (d : PyDateTime) : List Nat :=
  [d.year, d.month, d.day, d.hour, d.minute, d.second]

def lexLt : List Nat → List Nat → Bool
  | [], [] => false
  | [], _ :: _ => true
  | _ :: _, [] => false
  | a :: as, b :: bs => if a < b then true else if b < a then false else lexLt as bs

def dtLt (a b : PyDateTime) : Bool := lexLt a.fields b.fields

/-- `%Y`-style zero padding to two digits. -/
def pad2 (n : Nat) : String :=
  if n < 10 then "0" ++ Nat.repr n else Nat.repr n

/-- `%Y`-style zero padding to four digits. -/
def pad4 (n : Nat) : String :=
  if n < 10 then "000" ++ Nat.repr n
  else if n < 100 then "00" ++ Nat.repr n
  else if n < 1000 then "0" ++ Nat.repr n
  else Nat.repr n

/-- `d.strftime("%Y-%m-%d")`. -/
def strftimeYmd (d : PyDateTime) : String :=
  pad4 d.year ++ "-" ++ pad2 d.month ++ "-" ++ pad2 d.day

/-- `d.strftime("%Y%m%d_%H%M%S")`. -/
def strftimeCompact (d : PyDateTime) : String :=
  pad4 d.year ++ pad2 d.month ++ pad2 d.day ++ "_" ++
    pad2 d.hour ++ pad2 d.minute ++ pad2 d.second

/-- `d.isoformat()` (seconds precision suffices for the embedding). -/
def isoformat (d : PyDateTime) : String :=
  pad4 d.year ++ "-" ++ pad2 d.month ++ "-" ++ pad2 d.day ++ "T" ++
    pad2 d.hour ++ ":" ++ pad2 d.minute ++ ":" ++ pad2 d.second

/-! ### The FileRecord data model (src/core/file_info.py, class FileInfo) -/

inductive Status
  | pending
  | copied
  | skipped
  | error
deriving DecidableEq

/-- One `FileInfo` object.  `associated` holds heap indices of the
owned sidecar records (`associated_files` holds object references in
Python; indices model object identity). -/
structure FileInfo where
  originalPath : String
  originalFilename : String
  originalExtension : String
  size : Nat
  lastModified : PyDateTime
  metadata : List (String × String)
  hash : Option String
  targetPath : Option String
  targetFilename : Option String
  status : Status
  associated : List Nat
  errorMessage : Option String
deriving DecidableEq

/-- The object heap of one run. -/
def Store := Nat → FileInfo

/-- Truthiness of a Python `Optional[str]`: `None` and `""` are falsy. -/
def truthyStr (s : Option String) : Bool := s.getD "" ≠ ""

def hasTarget (r : FileInfo) : Bool := truthyStr r.targetPath

/-- `FileInfo.set_status`: the error message is only stored when truthy. -/
def setStatus (r : FileInfo) (s : Status) (msg : Option String) : FileInfo :=
  { r with status := s,
           errorMessage := if truthyStr msg then msg else r.errorMessage }

/-- POSIX `os.path.basename`. -/
def pyBasename (s : String) : String :=
  ((s.data.reverse.takeWhile (fun c => c ≠ '/')).reverse).asString

/-- POSIX `os.path.dirname`. -/
def pyDirname (s : String) : String :=
  let rev := s.data.reverse
  let headRev := rev.dropWhile (fun c => c ≠ '/')
  let finalRev :=
    if headRev ≠ [] ∧ ¬ (headRev.all (fun c => c = '/')) then
      headRev.dropWhile (fun c => c = '/')
    else headRev
  finalRev.reverse.asString

/-- Reversed basename characters of a path (everything after the last
slash, reading right to left). -/
def bnRev (s : String) : List Char :=
  s.data.reverse.takeWhile (fun c => c ≠ '/')

/-- Reversed characters after the last dot of the basename. -/
def extRev (s : String) : List Char :=
  (bnRev s).takeWhile (fun c => c ≠ '.')

/-- POSIX `os.path.splitext`: split off the extension at the last dot
of the basename, unless every character of the basename before that
dot is itself a dot. -/
def splitext (s : String) : String × String :=
  if (extRev s).length = (bnRev s).length then (s, "")
  else if ((bnRev s).drop ((extRev s).length + 1)).all (fun c => c = '.') then (s, "")
  else
    ((s.data.take (s.data.length - ((extRev s).length + 1))).asString,
     (s.data.drop (s.data.length - ((extRev s).length + 1))).asString)

/-- `FileInfo.set_target_path`. -/
def setTargetPath (r : FileInfo) (p : String) : FileInfo :=
  { r with targetPath := some p, targetFilename := some (pyBasename p) }

/-- `FileInfo.add_associated_file`. -/
def addAssociatedFile (r : FileInfo) (j : Nat) : FileInfo :=
  { r with associated := r.associated ++ [j] }

/-! ### FileOperations.resolve_path_conflicts
(src/core/file_operations.py, lines 390-453) -/

inductive DupPolicy
  | skip
  | overwrite
  | rename
  | ask
deriving DecidableEq

/-- The dict key under which a record is grouped (`file_info.target_path`). -/
def targetKey (st : Store) (i : Nat) : String := (st i).targetPath.getD ""

/-- The order in which `resolve_path_conflicts` feeds records into
`path_groups`: each listed record whose target path is truthy, followed
by its associated records whose target paths are truthy (a falsy target
on the record skips the record and its associated files). -/
def workList (st : Store) (idxs : List Nat) : List Nat :=
  idxs.foldl (fun acc i =>
    if hasTarget (st i) then
      acc ++ i :: (st i).associated.filter (fun j => hasTarget (st j))
    else acc) []

/-- The `path_groups` dict, fully built before any policy is applied. -/
def pathGroups (st : Store) (idxs : List Nat) : List (String × List Nat) :=
  buildGroups (targetKey st) (workList st idxs)

/-- Comparison used by `sorted(info_list, key=lambda x: x.last_modified,
reverse=True)`: `a` strictly precedes `b` when its timestamp is larger. -/
def ltModDesc (st : Store) (a b : Nat) : Bool :=
  dtLt (st b).lastModified (st a).lastModified

/-- `f"{base_path}_{i}{ext}"` where `(base_path, ext) = splitext(target_path)`. -/
def renamePath (tp : String) (i : Nat) : String :=
  (splitext tp).1 ++ "_" ++ Nat.repr i ++ (splitext tp).2

/-- Processing of one colliding group of `path_groups`. -/
def applyPolicy (policy : DupPolicy) (st : Store) (tp : String) (g : List Nat) : Store :=
  if g.length ≤ 1 then st
  else
    match policy with
    | .skip =>
        g.tail.foldl
          (fun s j => updStore s j (setStatus (s j) .skipped (some "Duplicate path"))) st
    | .overwrite =>
        (sortBy (ltModDesc st) g).tail.foldl
          (fun s j => updStore s j (setStatus (s j) .skipped (some "Older duplicate"))) st
    | .rename =>
        (g.tail.foldl
          (fun (p : Store × Nat) j =>
            (updStore p.1 j (setTargetPath (p.1 j) (renamePath tp p.2)), p.2 + 1))
          (st, 1)).1
    | .ask => st

def resolvePathConflicts (st : Store) (idxs : List Nat) (policy : DupPolicy) : Store :=
  (pathGroups st idxs).foldl (fun s g => applyPolicy policy s g.1 g.2) st

/-! ### Effect of resolve_path_conflicts on the store -/

/-! ### Concrete instances -/

/-- A freshly scanned record, fields as `FileInfo.__init__` sets them. -/
def mkFileInfo (path ext : String) (tgt : Option String) (lm : PyDateTime) : FileInfo :=
  { originalPath := path
    originalFilename := pyBasename path
    originalExtension := ext
    size := 0
    lastModified := lm
    metadata := []
    hash := none
    targetPath := tgt
    targetFilename := none
    status := .pending
    associated := []
    errorMessage := none }

def dt2024 : PyDateTime := ⟨2024, 1, 1, 0, 0, 0⟩

/-- Three pending records: two collide at `/dst/x.jpg`, a third already
sits at `/dst/x_1.jpg` — the path the rename policy will produce. -/
def c1Store : Store := fun i =>
  if i = 0 then mkFileInfo "/src/a.jpg" "jpg" (some "/dst/x.jpg") dt2024
  else if i = 1 then mkFileInfo "/src/b.jpg" "jpg" (some "/dst/x.jpg") dt2024
  else mkFileInfo "/src/c.jpg" "jpg" (some "/dst/x_1.jpg") dt2024

/-- Two pending records colliding at `/dst/x.jpg`, the second one
modified later. -/
def c4Store : Store := fun i =>
  if i = 0 then mkFileInfo "/src/a.jpg" "jpg" (some "/dst/x.jpg") ⟨2024, 1, 1, 0, 0, 0⟩
  else mkFileInfo "/src/b.jpg" "jpg" (some "/dst/x.jpg") ⟨2024, 6, 1, 0, 0, 0⟩

/-- Two pending records with distinct target paths. -/
def twoTargetStore : Store := fun i =>
  if i = 0 then mkFileInfo "/src/a.jpg" "jpg" (some "/dst/a.jpg") dt2024
  else mkFileInfo "/src/b.jpg" "jpg" (some "/dst/b.jpg") dt2024

/-! ### FileOperations.find_associated_files
(src/core/file_operations.py, lines 260-317) -/

/-- Python `str.lower()` (ASCII suffices for the embedding). -/
def strLower (s : String) : String := (s.data.map Char.toLower).asString

/-- `file_info.original_extension.lower() in [e.lower() for e in exts]`. -/
def isSidecar (exts : List String) (r : FileInfo) : Bool :=
  (exts.map strLower).contains (strLower r.originalExtension)

/-- The grouping key `(base_dir, base_name)`. -/
def assocKey (st : Store) (i : Nat) : String × String :=
  (pyDirname (st i).originalPath, (splitext (st i).originalFilename).1)

/-- Appending a whole sub-file list via repeated `add_associated_file`. -/
def addAssociatedAll (r : FileInfo) (subs : List Nat) : FileInfo :=
  { r with associated := r.associated ++ subs }

/-- Main/sub split of one group, with promotion of the first sub file
when the group has no main file (`main_files = [sub_files.pop(0)]`). -/
def mainSubSplit (exts : List String) (st : Store) (g : List Nat) : List Nat × List Nat :=
  if g.filter (fun i => !(isSidecar exts (st i))) = [] ∧
      g.filter (fun i => isSidecar exts (st i)) ≠ [] then
    ((g.filter (fun i => isSidecar exts (st i))).take 1,
     (g.filter (fun i => isSidecar exts (st i))).drop 1)
  else
    (g.filter (fun i => !(isSidecar exts (st i))),
     g.filter (fun i => isSidecar exts (st i)))

/-- Processing of one `(base_dir, base_name)` group: every main file
receives every sub file of the group. -/
def processAssocGroup (exts : List String) (st : Store) (g : List Nat) : Store :=
  (mainSubSplit exts st g).1.foldl
    (fun st2 m => updStore st2 m (addAssociatedAll (st2 m) (mainSubSplit exts st g).2)) st

def assocGroups (st : Store) (idxs : List Nat) : List ((String × String) × List Nat) :=
  buildGroups (assocKey st) idxs

/-- `FileOperations.find_associated_files` (the mutation of the
records; the report dictionary it also returns is derived data the
claims do not mention). -/
def findAssociatedFiles (st : Store) (idxs : List Nat) (exts : List String) : Store :=
  (assocGroups st idxs).foldl (fun st2 g => processAssocGroup exts st2 g.2) st

/-- Specification-side view of the group of a record. -/
def groupOf (st : Store) (idxs : List Nat) (i : Nat) : List Nat :=
  idxs.filter (fun j => assocKey st j = assocKey st i)

/-- Three records sharing base name `IMG_1` in directory `d`: two main
files (`.JPG`, `.MP4`) and one sidecar (`.XMP`). -/
def c2Store : Store := fun i =>
  if i = 0 then mkFileInfo "d/IMG_1.JPG" "jpg" none dt2024
  else if i = 1 then mkFileInfo "d/IMG_1.MP4" "mp4" none dt2024
  else mkFileInfo "d/IMG_1.XMP" "xmp" none dt2024

/-- One main file and one sidecar sharing base name `IMG_1`. -/
def c2WitnessStore : Store := fun i =>
  if i = 0 then mkFileInfo "d/IMG_1.JPG" "jpg" none dt2024
  else mkFileInfo "d/IMG_1.XMP" "xmp" none dt2024

/-! ### FileOperations.copy_files
(src/core/file_operations.py, lines 455-523)

The physical copy is modelled by an environment `env : Nat → Option
String` assigning each record the outcome of its `os.makedirs` +
`shutil.copy2` attempt: `none` for success, `some msg` for an
exception with message `msg`. -/

/-- Copy attempt for one associated file (inner try/except). -/
def copyAssocStep (env : Nat → Option String) (p : Store × Nat) (j : Nat) : Store × Nat :=
  if (p.1 j).status = .pending ∧ truthyStr (p.1 j).targetPath = true then
    match env j with
    | none => (updStore p.1 j (setStatus (p.1 j) .copied none), p.2 + 1)
    | some m => (updStore p.1 j (setStatus (p.1 j) .error (some m)), p.2)
  else p

/-- One iteration of the copy loop.  State: (store, processed_files,
success_count, callback invocation log). -/
def copyStep (env : Nat → Option String) (total : Nat)
    (s : Store × Nat × Nat × List (Nat × Nat × String)) (i : Nat) :
    Store × Nat × Nat × List (Nat × Nat × String) :=
  if (s.1 i).status = .pending ∧ truthyStr (s.1 i).targetPath = true then
    let p2 :=
      match env i with
      | none =>
          (s.1 i).associated.foldl (copyAssocStep env)
            (updStore s.1 i (setStatus (s.1 i) .copied none), s.2.2.1 + 1)
      | some m => (updStore s.1 i (setStatus (s.1 i) .error (some m)), s.2.2.1)
    (p2.1, s.2.1 + 1, p2.2, s.2.2.2 ++ [(s.2.1 + 1, total, (s.1 i).originalFilename)])
  else s

/-- `FileOperations.copy_files`; returns the final heap, the returned
success count, and the list of `progress_callback` invocations. -/
def copyFiles (env : Nat → Option String) (st : Store) (idxs : List Nat) :
    Store × Nat × List (Nat × Nat × String) :=
  let total := (idxs.filter
    (fun i => (st i).status = .pending ∧ (st i).targetPath ≠ none)).length
  let r := idxs.foldl (copyStep env total) (st, 0, 0, [])
  (r.1, r.2.2.1, r.2.2.2)

/-- Per-record outcome of the copy attempt. -/
def copyOutcome (env : Nat → Option String) (r : FileInfo) (i : Nat) : FileInfo :=
  match env i with
  | none => setStatus r .copied none
  | some m => setStatus r .error (some m)

/-- Failure environment for the copy witness: record 0's copy raises. -/
def c3Env : Nat → Option String := fun i => if i = 0 then some "copy failed" else none

/-! ### PathGenerator.generate_filename
(src/core/path_generator.py, lines 9-213) -/

/-- Path element objects; a `sequence` element carries its own mutable
counter (`self._counter`). -/
inductive PathElement
  | literal (value : String)
  | metadata (key : String)
  | originalFilename
  | sequence (digits : Nat) (counter : Nat)
deriving DecidableEq

/-- Python whitespace stripped by `str.strip()` (ASCII). -/
def isPySpace (c : Char) : Bool :=
  c = ' ' ∨ c = '\t' ∨ c = '\n' ∨ c = '\r' ∨ c = '\x0b' ∨ c = '\x0c'

/-- `str.strip()`. -/
def pyStrip (s : String) : String :=
  (((s.data.dropWhile isPySpace).reverse.dropWhile isPySpace).reverse).asString

/-- The character class `<>:"/\|?*` of `re.sub(r'[<>:"/\\|?*]', "_", value)`. -/
def isForbiddenChar (c : Char) : Bool :=
  c = '<' ∨ c = '>' ∨ c = ':' ∨ c = '"' ∨ c = '/' ∨ c = '\\' ∨
    c = '|' ∨ c = '?' ∨ c = '*'

def sanitize (s : String) : String :=
  (s.data.map (fun c => if isForbiddenChar c then '_' else c)).asString

/-- `metadata.get(key)` under Python truthiness (`if value:`). -/
def getTruthy (md : List (String × String)) (k : String) : Option String :=
  match md.lookup k with
  | some s => if s ≠ "" then some s else none
  | none => none

/-- `f"{n:0{w}d}"`. -/
def padZeros (w n : Nat) : String :=
  if (Nat.repr n).length < w then
    (List.replicate (w - (Nat.repr n).length) '0').asString ++ Nat.repr n
  else Nat.repr n

/-- `MetadataElement.generate`. -/
def metadataGenerate (key : String) (r : FileInfo) : String :=
  if key = "datetime" then
    match getTruthy r.metadata "datetime" with
    | some dt =>
        ((dt.data.filter (fun c => c ≠ ':')).map
          (fun c => if c = ' ' then '_' else c)).asString
    | none => strftimeCompact r.lastModified
  else
    match getTruthy r.metadata key with
    | some v => sanitize (pyStrip v)
    | none =>
        if key = "year" then pad4 r.lastModified.year
        else if key = "month" then pad2 r.lastModified.month
        else if key = "day" then pad2 r.lastModified.day
        else if key = "camera_make" then "Unknown"
        else if key = "camera_model" then "Unknown"
        else "Unknown"

/-- `element.generate(file_info)`: the produced string and the element
afterwards (sequence counters increment in place). -/
def elemGenerate (e : PathElement) (r : FileInfo) : String × PathElement :=
  match e with
  | .literal v => (v, .literal v)
  | .metadata k => (metadataGenerate k r, .metadata k)
  | .originalFilename => ((splitext r.originalFilename).1, .originalFilename)
  | .sequence d c => (padZeros d (c + 1), .sequence d (c + 1))

/-- One iteration of the filename-parts loop: non-empty parts are
sanitized and collected. -/
def filenameStep (r : FileInfo) (acc : List String × List PathElement)
    (e : PathElement) : List String × List PathElement :=
  (if (elemGenerate e r).1 ≠ "" then acc.1 ++ [sanitize (elemGenerate e r).1] else acc.1,
   acc.2 ++ [(elemGenerate e r).2])

/-- `PathGenerator.generate_filename`: the filename with extension and
the elements after the render pass. -/
def generateFilename (r : FileInfo) (els : List PathElement) :
    String × List PathElement :=
  let pe := els.foldl (filenameStep r) ([], [])
  ((if String.join pe.1 = "" then "file" else String.join pe.1) ++ "." ++
     r.originalExtension,
   pe.2)

/-! ### FilterChain (src/core/filter_base.py)

`FilterResult.metadata` is `Dict[str, Any]`; string keys and values
suffice for the embedding.  The chain's `FilterStats` bookkeeping is
side statistics none of the claims mention and is not modelled. -/

def Md : Type := List (String × String)

structure FilterResult where
  «include» : Bool
  reason : Option String
  metadata : Md

/-- A `BaseFilter` instance: its identifier, `enabled` and `priority`
config fields, and its `check_file` method. -/
structure BaseFilter where
  filterId : String
  enabled : Bool
  priority : Int
  checkFile : FileInfo → FilterResult

/-- `sorted` comparison of `self.filters.sort(key=lambda f: f.priority)`. -/
def ltPriority (a b : BaseFilter) : Bool := a.priority < b.priority

/-- `FilterChain.add_filter`: enabled filters are appended and the
list is stably re-sorted by priority. -/
def addFilter (chain : List BaseFilter) (f : BaseFilter) : List BaseFilter :=
  if f.enabled then sortBy ltPriority (chain ++ [f]) else chain

/-- The chain obtained by registering `fs` in order on a fresh chain. -/
def buildChain (fs : List BaseFilter) : List BaseFilter :=
  fs.foldl addFilter []

/-- Python dict assignment `d[k] = v`: replace in place or append. -/
def dictSet {β : Type} (m : List (String × β)) (k : String) (v : β) :
    List (String × β) :=
  match m with
  | [] => [(k, v)]
  | (k2, v2) :: rest => if k2 = k then (k2, v) :: rest else (k2, v2) :: dictSet rest k v

/-- The loop of `FilterChain.should_include_file`, with the
accumulated `filter_metadata` dict. -/
def shouldIncludeAux (r : FileInfo) :
    List BaseFilter → List (String × Md) → Bool × Option String × List (String × Md)
  | [], md => (true, none, md)
  | f :: rest, md =>
      let result := f.checkFile r
      if result.«include» = false then
        (false, result.reason, dictSet md f.filterId result.metadata)
      else shouldIncludeAux r rest (dictSet md f.filterId result.metadata)

/-- `FilterChain.should_include_file`. -/
def shouldIncludeFile (filters : List BaseFilter) (r : FileInfo) :
    Bool × Option String × List (String × Md) :=
  shouldIncludeAux r filters []

/-- The `filter_metadata` dict accumulated over a filter list. -/
def chainMeta (r : FileInfo) (filters : List BaseFilter) : List (String × Md) :=
  filters.foldl (fun md f => dictSet md f.filterId (f.checkFile r).metadata) []

/-- A passing filter with priority 10. -/
def wFilterA : BaseFilter :=
  ⟨"fa", true, 10, fun _ => ⟨true, none, [("a", "1")]⟩⟩

/-- A rejecting filter with priority 20. -/
def wFilterB : BaseFilter :=
  ⟨"fb", true, 20, fun _ => ⟨false, some "rejected by fb", [("b", "2")]⟩⟩

def wRec : FileInfo := mkFileInfo "/s/a.jpg" "jpg" none dt2024

/-! ### DateRangeFilter (src/core/filters/date_range_filter.py)

`_parse_date` delegates to `datetime.strptime` over four formats;
the `strptime` regular expressions (4-digit year, 1-2 digit other
fields with their leading-digit alternations, full-string match,
left-to-right alternation with backtracking) and the `datetime`
constructor's calendar validation are modelled below. -/

inductive NumField
  | m
  | d
  | hh
  | mm
  | ss
deriving DecidableEq

inductive FmtTok
  | lit (c : Char)
  | year
  | num (k : NumField)
deriving DecidableEq

def digitVal (c : Char) : Option Nat :=
  if 48 ≤ c.toNat ∧ c.toNat ≤ 57 then some (c.toNat - 48) else none

/-- The two-digit alternatives of the `strptime` field regexes
(`1[0-2]|0[1-9]` for `%m`, `3[01]|[12]\d|0[1-9]` for `%d`,
`2[0-3]|[0-1]\d` for `%H`, `[0-5]\d` for `%M`/`%S`). -/
def twoDigitCand (k : NumField) : List Char → Option (Nat × List Char)
  | c0 :: c1 :: rest =>
    (match digitVal c0, digitVal c1 with
     | some d0, some d1 =>
       let ok : Bool :=
         match k with
         | .m => decide ((d0 = 1 ∧ d1 ≤ 2) ∨ (d0 = 0 ∧ 1 ≤ d1))
         | .d => decide ((d0 = 3 ∧ d1 ≤ 1) ∨ d0 = 1 ∨ d0 = 2 ∨ (d0 = 0 ∧ 1 ≤ d1))
         | .hh => decide ((d0 = 2 ∧ d1 ≤ 3) ∨ d0 ≤ 1)
         | .mm => decide (d0 ≤ 5)
         | .ss => decide (d0 ≤ 5)
       if ok then some (10 * d0 + d1, rest) else none
     | _, _ => none)
  | _ => none

/-- The one-digit alternatives (`[1-9]` for `%m`/`%d`, `\d` for
`%H`/`%M`/`%S`). -/
def oneDigitCand (k : NumField) : List Char → Option (Nat × List Char)
  | c0 :: rest =>
    (match digitVal c0 with
     | some d0 =>
       let ok : Bool :=
         match k with
         | .m => decide (1 ≤ d0)
         | .d => decide (1 ≤ d0)
         | .hh => true
         | .mm => true
         | .ss => true
       if ok then some (d0, rest) else none
     | none => none)
  | _ => none

/-- `%Y`: exactly four digits. -/
def fourDigitCand : List Char → Option (Nat × List Char)
  | c0 :: c1 :: c2 :: c3 :: rest =>
    (match digitVal c0, digitVal c1, digitVal c2, digitVal c3 with
     | some a, some b, some c, some d => some (1000 * a + 100 * b + 10 * c + d, rest)
     | _, _, _, _ => none)
  | _ => none

/-- Full-string regex match of a format, with the longer alternative
tried first and backtracking on failure of the rest of the pattern. -/
def matchFmt : List FmtTok → List Char → Option (List Nat)
  | [], cs => if cs.isEmpty then some [] else none
  | .lit c :: ts, cs =>
    (match cs with
     | c2 :: rest => if c2 = c then matchFmt ts rest else none
     | [] => none)
  | .year :: ts, cs =>
    (match fourDigitCand cs with
     | some (v, rest) => (matchFmt ts rest).map (fun vs => v :: vs)
     | none => none)
  | .num k :: ts, cs =>
    (match twoDigitCand k cs, oneDigitCand k cs with
     | some (v2, r2), some (v1, r1) =>
       (match matchFmt ts r2 with
        | some vs => some (v2 :: vs)
        | none => (matchFmt ts r1).map (fun vs => v1 :: vs))
     | some (v2, r2), none => (matchFmt ts r2).map (fun vs => v2 :: vs)
     | none, some (v1, r1) => (matchFmt ts r1).map (fun vs => v1 :: vs)
     | none, none => none)

def isLeap (y : Nat) : Bool := decide ((y % 4 = 0 ∧ y % 100 ≠ 0) ∨ y % 400 = 0)

def daysInMonth (y mo : Nat) : Nat :=
  if mo = 2 then (if isLeap y then 29 else 28)
  else if mo = 4 ∨ mo = 6 ∨ mo = 9 ∨ mo = 11 then 30
  else 31

/-- The `datetime(...)` constructor's validation. -/
def mkValidDateTime (y mo d h mi s : Nat) : Option PyDateTime :=
  if 1 ≤ y ∧ y ≤ 9999 ∧ 1 ≤ mo ∧ mo ≤ 12 ∧ 1 ≤ d ∧ d ≤ daysInMonth y mo ∧
      h ≤ 23 ∧ mi ≤ 59 ∧ s ≤ 59 then
    some ⟨y, mo, d, h, mi, s⟩
  else none

def fmtYmdDash : List FmtTok := [.year, .lit '-', .num .m, .lit '-', .num .d]

def fmtYmdSlash : List FmtTok := [.year, .lit '/', .num .m, .lit '/', .num .d]

def fmtYmdHms : List FmtTok :=
  fmtYmdDash ++ [.lit ' ', .num .hh, .lit ':', .num .mm, .lit ':', .num .ss]

def fmtExif : List FmtTok :=
  [.year, .lit ':', .num .m, .lit ':', .num .d,
   .lit ' ', .num .hh, .lit ':', .num .mm, .lit ':', .num .ss]

/-- `datetime.strptime(s, fmt)` followed by `datetime` construction;
unmatched fields default to zero midnight. -/
def strptime1 (fmt : List FmtTok) (s : String) : Option PyDateTime :=
  match matchFmt fmt s.data with
  | some [y, mo, d] => mkValidDateTime y mo d 0 0 0
  | some [y, mo, d, h, mi, sec] => mkValidDateTime y mo d h mi sec
  | _ => none

/-- `DateRangeFilter._parse_date` on a truthy string: the four formats
are tried in order; `none` models the final `raise ValueError`. -/
def parseDate (s : String) : Option PyDateTime :=
  match strptime1 fmtYmdDash s with
  | some dt => some dt
  | none =>
    match strptime1 fmtYmdSlash s with
    | some dt => some dt
    | none =>
      match strptime1 fmtYmdHms s with
      | some dt => some dt
      | none => strptime1 fmtExif s

structure DateRangeConfig where
  startDate : Option String := none
  endDate : Option String := none
  useMetadataDate : Bool := true
  useFileModifiedDate : Bool := false
  dateField : String := "datetime"

structure DateRangeFilter where
  startDate : Option PyDateTime
  endDate : Option PyDateTime
  useMetadataDate : Bool
  useFileModifiedDate : Bool
  dateField : String
deriving DecidableEq

/-- `_parse_date` on an optional config entry: falsy input yields
`None`; a present but unparseable string raises (`none` result of the
constructor). -/
def parseOptDate : Option String → Option (Option PyDateTime)
  | none => some none
  | some s => if s = "" then some none else (parseDate s).map some

/-- `DateRangeFilter.__init__`. -/
def DateRangeFilter.ofConfig (cfg : DateRangeConfig) : Option DateRangeFilter :=
  match parseOptDate cfg.startDate, parseOptDate cfg.endDate with
  | some sd, some ed =>
      some ⟨sd, ed, cfg.useMetadataDate, cfg.useFileModifiedDate, cfg.dateField⟩
  | _, _ => none

/-- One metadata-field attempt of `_extract_metadata_date`:
`metadata.get(field)` under truthiness, then `_parse_date` with the
`ValueError` caught. -/
def DateRangeFilter.tryField (r : FileInfo) (field : String) : Option PyDateTime :=
  match getTruthy r.metadata field with
  | some s => parseDate s
  | none => none

def firstParse (r : FileInfo) : List String → Option PyDateTime
  | [] => none
  | f :: rest =>
    (match DateRangeFilter.tryField r f with
     | some dt => some dt
     | none => firstParse r rest)

/-- `DateRangeFilter._extract_metadata_date`. -/
def DateRangeFilter.extractMetadataDate (flt : DateRangeFilter) (r : FileInfo) :
    Option PyDateTime :=
  match DateRangeFilter.tryField r flt.dateField with
  | some dt => some dt
  | none =>
      firstParse r
        ((["datetime", "dateTimeOriginal", "dateTimeDigitized"]).filter
          (fun f => f ≠ flt.dateField))

/-- `DateRangeFilter._get_file_date`. -/
def DateRangeFilter.getFileDate (flt : DateRangeFilter) (r : FileInfo) :
    Option PyDateTime :=
  match (if flt.useMetadataDate = true ∧ r.metadata ≠ [] then
      flt.extractMetadataDate r else none) with
  | some dt => some dt
  | none => if flt.useFileModifiedDate then some r.lastModified else none

/-- `DateRangeFilter._get_date_source`. -/
def DateRangeFilter.dateSource (flt : DateRangeFilter) : String :=
  if flt.useMetadataDate then "metadata_" ++ flt.dateField
  else if flt.useFileModifiedDate then "file_modified"
  else "unknown"

/-- `DateRangeFilter.check_file`.  Python `None` metadata values are
rendered as the string "None" (the claims never inspect them). -/
def DateRangeFilter.checkFile (flt : DateRangeFilter) (r : FileInfo) : FilterResult :=
  match flt.getFileDate r with
  | none =>
      ⟨true, none, [("file_date", "None"), ("date_source", "unknown")]⟩
  | some fd =>
      let p1 : Bool × Option String :=
        match flt.startDate with
        | some sd =>
            if dtLt fd sd then
              (false, some ("File date " ++ strftimeYmd fd ++
                " is before start date " ++ strftimeYmd sd))
            else (true, none)
        | none => (true, none)
      let p2 : Bool × Option String :=
        match flt.endDate with
        | some ed =>
            if dtLt ed fd then
              (false, some ("File date " ++ strftimeYmd fd ++
                " is after end date " ++ strftimeYmd ed))
            else p1
        | none => p1
      ⟨p2.1, p2.2,
       [("file_date", isoformat fd),
        ("date_source", flt.dateSource),
        ("start_date", match flt.startDate with
          | some sd => isoformat sd
          | none => "None"),
        ("end_date", match flt.endDate with
          | some ed => isoformat ed
          | none => "None")]⟩

/-- Record carrying the EXIF datetime `2020:12:01 10:15:20`. -/
def c7Rec : FileInfo :=
  { mkFileInfo "/s/a.jpg" "jpg" none dt2024 with
    metadata := [("datetime", "2020:12:01 10:15:20")] }

inductive HashAlg : Type
  | md5
  | sha1
  | sha256
deriving DecidableEq

/-- `{"md5": ..., "sha1": ..., "sha256": ...}.get(algorithm.lower(), hashlib.sha256)`. -/
def parseAlg (s : String) : HashAlg :=
  if strLower s = "md5" then .md5
  else if strLower s = "sha1" then .sha1
  else .sha256

/-- `FileInfo.calculate_hash`, parameterised by the hex digest of the file
found at a path under each algorithm (`hashlib` and the chunked file read
are outside the model).  Returns the digest together with the updated
record; `if self.hash:` is the Python truthiness cache check. -/
def calculateHash (digest : HashAlg → String → String) (alg : String)
    (r : FileInfo) : String × FileInfo :=
  if truthyStr r.hash then (r.hash.getD "", r)
  else
    (digest (parseAlg alg) r.originalPath,
     { r with hash := some (digest (parseAlg alg) r.originalPath) })

/-- One iteration of the `check_duplicates` loop: skip records with a
falsy target path, otherwise compute (and cache) the hash and append the
record to its hash group. -/
def dupStep (digest : HashAlg → String → String) (alg : String)
    (acc : Store × List (String × List Nat)) (i : Nat) :
    Store × List (String × List Nat) :=
  if hasTarget (acc.1 i) then
    (updStore acc.1 i (calculateHash digest alg (acc.1 i)).2,
     upsert acc.2 (calculateHash digest alg (acc.1 i)).1 i)
  else acc

/-- `FileOperations.check_duplicates`: the final dict keeps only groups
with more than one member. -/
def checkDuplicates (digest : HashAlg → String → String) (alg : String)
    (st : Store) (idxs : List Nat) : Store × List (String × List Nat) :=
  ((idxs.foldl (dupStep digest alg) (st, [])).1,
   (idxs.foldl (dupStep digest alg) (st, [])).2.filter (fun g => 1 < g.2.length))

def c9Digest : HashAlg → String → String := fun _ _ => "d"

/-- Two truthy-target records (whose contents digest equally) and one
record without a target path. -/
def c9Store : Store := fun i =>
  if i = 0 then mkFileInfo "/s/a.jpg" "jpg" (some "/d/a.jpg") dt2024
  else if i = 1 then mkFileInfo "/s/b.jpg" "jpg" (some "/d/b.jpg") dt2024
  else mkFileInfo "/s/c.jpg" "jpg" none dt2024

def c10Digest : HashAlg → String → String := fun a _ =>
  match a with
  | .md5 => "m"
  | .sha1 => "s1"
  | .sha256 => "s2"

def c10Rec : FileInfo := mkFileInfo "/s/a.jpg" "jpg" none dt2024

def c7Flt : DateRangeFilter := ⟨none, none, true, false, "datetime"⟩

def c7NoDateRec : FileInfo := mkFileInfo "/s/n.jpg" "jpg" none dt2024

/-! ### Theorems -/

theorem mem_firstDedup {κ : Type} [DecidableEq κ] (l : List κ) (k : κ) :
    k ∈ firstDedup l ↔ k ∈ l := by
  induction l with
  | nil => simp [firstDedup]
  | cons a as ih =>
    simp only [firstDedup, List.mem_cons, List.mem_filter]
    by_cases hk : k = a
    · simp [hk]
    · simp [hk, ih]

theorem nodup_firstDedup {κ : Type} [DecidableEq κ] (l : List κ) :
    (firstDedup l).Nodup := by
  induction l with
  | nil => simp [firstDedup]
  | cons a as ih =>
    simp only [firstDedup]
    refine List.Nodup.cons ?_ (List.Nodup.filter _ ih)
    intro hmem
    have := (List.mem_filter.mp hmem).2
    simp at this

theorem firstDedup_append_singleton {κ : Type} [DecidableEq κ] (l : List κ) (k : κ) :
    firstDedup (l ++ [k]) =
      if k ∈ l then firstDedup l else firstDedup l ++ [k] := by
  induction l with
  | nil => simp [firstDedup]
  | cons a as ih =>
    by_cases hka : k = a
    · subst hka
      by_cases hk : k ∈ as
      · simp [firstDedup, ih, hk, List.filter_append]
      · simp [firstDedup, ih, hk, List.filter_append]
    · by_cases hk : k ∈ as
      · simp [firstDedup, ih, hk, hka]
      · simp [firstDedup, ih, hk, hka, List.filter_append]

theorem upsert_of_not_mem {κ : Type} [DecidableEq κ]
    (acc : List (κ × List Nat)) (k : κ) (i : Nat)
    (h : k ∉ acc.map Prod.fst) :
    upsert acc k i = acc ++ [(k, [i])] := by
  induction acc with
  | nil => rfl
  | cons e rest ih =>
    obtain ⟨k2, g⟩ := e
    have hne : k2 ≠ k := by
      intro he
      exact h (by simp [he])
    simp only [upsert, hne, if_false, List.cons_append, List.cons.injEq, true_and]
    exact ih (fun hm => h (by simp [hm]))

theorem upsert_of_mem {κ : Type} [DecidableEq κ]
    (acc1 acc2 : List (κ × List Nat)) (k : κ) (g : List Nat) (i : Nat)
    (h : k ∉ acc1.map Prod.fst) :
    upsert (acc1 ++ (k, g) :: acc2) k i = acc1 ++ (k, g ++ [i]) :: acc2 := by
  induction acc1 with
  | nil => simp [upsert]
  | cons e rest ih =>
    obtain ⟨k2, g2⟩ := e
    have hne : k2 ≠ k := by
      intro he
      exact h (by simp [he])
    simp only [List.cons_append, upsert, hne, if_false, List.cons.injEq, true_and]
    exact ih (fun hm => h (by simp [hm]))

theorem filter_append_singleton_ne {κ : Type} [DecidableEq κ]
    (key : Nat → κ) (l : List Nat) (i : Nat) (k : κ) (h : ¬ key i = k) :
    (l ++ [i]).filter (fun j => key j = k) = l.filter (fun j => key j = k) := by
  simp [List.filter_append, h]

theorem upsert_groupsBy {κ : Type} [DecidableEq κ] (key : Nat → κ) (l : List Nat) (i : Nat) :
    upsert (groupsBy key l) (key i) i = groupsBy key (l ++ [i]) := by
  by_cases hk : key i ∈ l.map key
  · -- the key already has an entry in the dict; `upsert` extends it in place
    have hmem : key i ∈ firstDedup (l.map key) := (mem_firstDedup _ _).mpr hk
    obtain ⟨ks1, ks2, hdec⟩ := List.append_of_mem hmem
    have hnd : (firstDedup (l.map key)).Nodup := nodup_firstDedup _
    rw [hdec] at hnd
    have hnotin1 : key i ∉ ks1 := by
      intro hin
      rcases (List.nodup_append.mp hnd) with ⟨_, _, hdisj⟩
      exact hdisj hin (by simp)
    have hnotin2 : key i ∉ ks2 := by
      rcases (List.nodup_append.mp hnd) with ⟨_, hnd2, _⟩
      exact (List.nodup_cons.mp hnd2).1
    have hmap : ∀ k ∈ ks1 ++ ks2, (l ++ [i]).filter (fun j => key j = k) =
        l.filter (fun j => key j = k) := by
      intro k hkmem
      refine filter_append_singleton_ne key l i k ?_
      intro he
      rcases List.mem_append.mp hkmem with h1 | h2
      · exact hnotin1 (he ▸ h1)
      · exact hnotin2 (he ▸ h2)
    have hfd2 : firstDedup ((l ++ [i]).map key) = firstDedup (l.map key) := by
      rw [List.map_append, List.map_cons, List.map_nil, firstDedup_append_singleton,
        if_pos hk]
    unfold groupsBy
    rw [hfd2, hdec]
    rw [List.map_append, List.map_cons]
    rw [upsert_of_mem _ _ _ _ _ (by
      intro hm
      apply hnotin1
      simpa using hm)]
    rw [List.map_append, List.map_cons]
    congr 1
    · exact (List.map_congr_left (fun k hk2 => by rw [hmap k (List.mem_append.mpr (Or.inl hk2))])).symm
    · congr 1
      · simp [List.filter_append]
      · exact (List.map_congr_left (fun k hk2 => by rw [hmap k (List.mem_append.mpr (Or.inr hk2))])).symm
  · -- fresh key: a new singleton entry is appended at the end
    have hfd2 : firstDedup ((l ++ [i]).map key) = firstDedup (l.map key) ++ [key i] := by
      rw [List.map_append, List.map_cons, List.map_nil, firstDedup_append_singleton,
        if_neg hk]
    have hnone : l.filter (fun j => key j = key i) = [] := by
      rw [List.filter_eq_nil_iff]
      intro j hj hkey
      exact hk (by
        have : key j = key i := by simpa using hkey
        exact this ▸ List.mem_map_of_mem key hj)
    have hmap : ∀ k ∈ firstDedup (l.map key), (l ++ [i]).filter (fun j => key j = k) =
        l.filter (fun j => key j = k) := by
      intro k hkmem
      refine filter_append_singleton_ne key l i k ?_
      intro he
      exact hk (he ▸ (mem_firstDedup _ _).mp hkmem)
    unfold groupsBy
    rw [hfd2]
    rw [upsert_of_not_mem _ _ _ (by
      intro hm
      apply hk
      have : key i ∈ firstDedup (l.map key) := by simpa using hm
      exact (mem_firstDedup _ _).mp this)]
    rw [List.map_append, List.map_cons, List.map_nil]
    congr 1
    · exact (List.map_congr_left (fun k hk2 => by rw [hmap k hk2])).symm
    · simp [List.filter_append, hnone]

theorem buildGroups_eq_groupsBy {κ : Type} [DecidableEq κ] (key : Nat → κ) (l : List Nat) :
    buildGroups key l = groupsBy key l := by
  induction l using List.reverseRecOn with
  | nil => rfl
  | append_singleton xs x ih =>
    unfold buildGroups at ih ⊢
    rw [List.foldl_append, List.foldl_cons, List.foldl_nil, ih, upsert_groupsBy]

theorem mem_groupsBy_iff {κ : Type} [DecidableEq κ] (key : Nat → κ) (l : List Nat)
    (g : κ × List Nat) (hg : g ∈ groupsBy key l) (i : Nat) :
    i ∈ g.2 ↔ i ∈ l ∧ key i = g.1 := by
  obtain ⟨k, _, rfl⟩ := List.mem_map.mp hg
  simp [List.mem_filter]

theorem groupsBy_pairwise_disjoint {κ : Type} [DecidableEq κ] (key : Nat → κ) (l : List Nat) :
    (groupsBy key l).Pairwise (fun g1 g2 => ∀ i, i ∈ g1.2 → i ∉ g2.2) := by
  unfold groupsBy
  rw [List.pairwise_map]
  refine List.Pairwise.imp ?_ (nodup_firstDedup (l.map key))
  intro k1 k2 hne i h1 h2
  have e1 : key i = k1 := by simpa using (List.mem_filter.mp h1).2
  have e2 : key i = k2 := by simpa using (List.mem_filter.mp h2).2
  exact hne (e1 ▸ e2)

theorem groupsBy_snd_nodup {κ : Type} [DecidableEq κ] (key : Nat → κ) (l : List Nat)
    (hl : l.Nodup) (g : κ × List Nat) (hg : g ∈ groupsBy key l) : g.2.Nodup := by
  obtain ⟨k, _, rfl⟩ := List.mem_map.mp hg
  exact hl.filter _

theorem perm_insertBy {α : Type} (lt : α → α → Bool) (x : α) (l : List α) :
    (insertBy lt x l).Perm (x :: l) := by
  induction l with
  | nil => exact List.Perm.refl _
  | cons y ys ih =>
    simp only [insertBy]
    by_cases h : lt y x
    · simp only [h, if_true]
      exact (ih.cons y).trans (List.Perm.swap x y ys)
    · simp [h]

theorem perm_sortBy {α : Type} (lt : α → α → Bool) (l : List α) :
    (sortBy lt l).Perm l := by
  induction l with
  | nil => exact List.Perm.refl _
  | cons x xs ih => exact (perm_insertBy lt x (sortBy lt xs)).trans (ih.cons x)

theorem mem_sortBy {α : Type} (lt : α → α → Bool) (l : List α) (a : α) :
    a ∈ sortBy lt l ↔ a ∈ l :=
  (perm_sortBy lt l).mem_iff

theorem filter_insertBy_pos {α : Type} (lt : α → α → Bool) (q : α → Bool) (x : α)
    (s : List α) (hqx : q x = true)
    (h : ∀ y ∈ s, lt y x = true → q y = false) :
    (insertBy lt x s).filter q = x :: s.filter q := by
  induction s with
  | nil => simp [insertBy, hqx]
  | cons y ys ih =>
    simp only [insertBy]
    by_cases hlt : lt y x
    · have hqy : q y = false := h y (by simp) hlt
      simp only [hlt, if_true, List.filter_cons, hqy]
      simpa [hqy] using ih (fun z hz => h z (by simp [hz]))
    · simp [hlt, List.filter_cons, hqx]

theorem filter_insertBy_neg {α : Type} (lt : α → α → Bool) (q : α → Bool) (x : α)
    (s : List α) (hqx : q x = false) :
    (insertBy lt x s).filter q = s.filter q := by
  induction s with
  | nil => simp [insertBy, hqx]
  | cons y ys ih =>
    simp only [insertBy]
    by_cases hlt : lt y x
    · simp only [hlt, if_true, List.filter_cons]
      by_cases hqy : q y <;> simp [hqy, ih]
    · simp [hlt, List.filter_cons, hqx]

/-- Stability of the insertion sort: the subsequence of any class whose
members never strictly precede one another is untouched. -/
theorem filter_sortBy {α : Type} (lt : α → α → Bool) (q : α → Bool) (l : List α)
    (H : ∀ a b, q a = true → q b = true → lt a b = false) :
    (sortBy lt l).filter q = l.filter q := by
  induction l with
  | nil => rfl
  | cons x xs ih =>
    simp only [sortBy]
    by_cases hqx : q x
    · rw [filter_insertBy_pos lt q x _ hqx ?_, ih, List.filter_cons, if_pos hqx]
      intro y hy hlt
      by_contra hqy
      have : lt y x = false := H y x (by simpa using hqy) hqx
      rw [this] at hlt
      exact Bool.false_ne_true hlt
    · rw [filter_insertBy_neg lt q x _ (by simpa using hqx), ih, List.filter_cons,
        if_neg hqx]

theorem pairwise_insertBy {α : Type} (lt : α → α → Bool)
    (hasymm : ∀ a b, lt a b = true → lt b a = false)
    (hnegtrans : ∀ a b c, lt a b = false → lt b c = false → lt a c = false)
    (x : α) (s : List α) (hs : s.Pairwise (fun a b => lt b a = false)) :
    (insertBy lt x s).Pairwise (fun a b => lt b a = false) := by
  induction s with
  | nil => simp [insertBy]
  | cons y ys ih =>
    rcases List.pairwise_cons.mp hs with ⟨hy, hys⟩
    simp only [insertBy]
    by_cases hlt : lt y x
    · simp only [hlt, if_true, List.pairwise_cons]
      refine ⟨?_, ih hys⟩
      intro z hz
      rcases List.mem_cons.mp ((perm_insertBy lt x ys).mem_iff.mp hz) with rfl | hz2
      · exact hasymm y z hlt
      · exact hy z hz2
    · have hyx : lt y x = false := by simpa using hlt
      rw [hyx]
      simp only [Bool.false_eq_true, if_false]
      rw [List.pairwise_cons]
      refine ⟨?_, hs⟩
      intro z hz
      rcases List.mem_cons.mp hz with rfl | hz2
      · exact hyx
      · exact hnegtrans z y x (hy z hz2) hyx

theorem pairwise_sortBy {α : Type} (lt : α → α → Bool)
    (hasymm : ∀ a b, lt a b = true → lt b a = false)
    (hnegtrans : ∀ a b c, lt a b = false → lt b c = false → lt a c = false)
    (l : List α) :
    (sortBy lt l).Pairwise (fun a b => lt b a = false) := by
  induction l with
  | nil => simp [sortBy]
  | cons x xs ih => exact pairwise_insertBy lt hasymm hnegtrans x _ ih

/-- The head of the stable sort is the first element of the input that
no element strictly precedes (for a strict total comparison: the first
occurrence of the minimum). -/
theorem sortBy_first_spec {α : Type} (lt : α → α → Bool)
    (hirr : ∀ a, lt a a = false)
    (hasymm : ∀ a b, lt a b = true → lt b a = false)
    (hnegtrans : ∀ a b c, lt a b = false → lt b c = false → lt a c = false)
    (l : List α) (hne : l ≠ []) :
    ∃ m t l1 l2, sortBy lt l = m :: t ∧ l = l1 ++ m :: l2 ∧
      (∀ y ∈ l1, lt m y = true) ∧ (∀ y ∈ l, lt y m = false) := by
  induction l with
  | nil => exact absurd rfl hne
  | cons x xs ih =>
    by_cases hxs : xs = []
    · subst hxs
      exact ⟨x, [], [], [], by simp [sortBy, insertBy], by simp, by simp,
        by simpa using hirr x⟩
    · obtain ⟨m, t, l1, l2, hsort, hdec, hpre, hmax⟩ := ih hxs
      simp only [sortBy, hsort]
      by_cases hlt : lt m x
      · refine ⟨m, insertBy lt x t, x :: l1, l2, ?_, by simp [hdec], ?_, ?_⟩
        · simp [insertBy, hlt]
        · intro y hy
          rcases List.mem_cons.mp hy with rfl | hy2
          · exact hlt
          · exact hpre y hy2
        · intro y hy
          rcases List.mem_cons.mp hy with rfl | hy2
          · exact hasymm m y hlt
          · exact hmax y hy2
      · have hmx : lt m x = false := by simpa using hlt
        refine ⟨x, m :: t, [], xs, ?_, by simp, by simp, ?_⟩
        · simp [insertBy, hlt]
        · intro y hy
          rcases List.mem_cons.mp hy with rfl | hy2
          · exact hirr y
          · exact hnegtrans y m x (hmax y (hdec ▸ hy2)) hmx

theorem foldl_upd_apply {β : Type} (f : β → β) (l : List Nat) (st : Nat → β) (i : Nat)
    (hnd : l.Nodup) :
    (l.foldl (fun s j => updStore s j (f (s j))) st) i =
      if i ∈ l then f (st i) else st i := by
  induction l generalizing st with
  | nil => simp
  | cons j l ih =>
    rcases List.nodup_cons.mp hnd with ⟨hj, hl⟩
    simp only [List.foldl_cons]
    rw [ih _ hl]
    by_cases hij : i = j
    · subst hij
      simp [updStore, hj]
    · by_cases hin : i ∈ l
      · simp [hin, hij, updStore]
      · simp [hin, hij, updStore]

/-- As `foldl_upd_apply`, but for a loop that also threads a counter
(`for n, i in enumerate(l, start)`). -/
theorem foldl_upd_enum_apply {β : Type} (f : Nat → β → β) (l : List Nat)
    (st : Nat → β) (n : Nat) (i : Nat) (hnd : l.Nodup) :
    ((l.foldl (fun (p : (Nat → β) × Nat) j => (updStore p.1 j (f p.2 (p.1 j)), p.2 + 1))
        (st, n)).1) i =
      if i ∈ l then f (n + l.indexOf i) (st i) else st i := by
  induction l generalizing st n with
  | nil => simp
  | cons j l ih =>
    rcases List.nodup_cons.mp hnd with ⟨hj, hl⟩
    simp only [List.foldl_cons]
    rw [ih _ _ hl]
    by_cases hij : i = j
    · subst hij
      simp [updStore, hj, List.indexOf_cons_self]
    · by_cases hin : i ∈ l
      · have hbeq : (j == i) = false := by
          simp only [beq_eq_false_iff_ne, ne_eq]
          exact fun h => hij h.symm
        have hidx : (j :: l).indexOf i = l.indexOf i + 1 := by
          rw [List.indexOf_cons, hbeq]
          simp
        have hst : updStore st j (f n (st j)) i = st i := by simp [updStore, hij]
        simp only [List.mem_cons, hij, false_or, hin, if_true, hst, hidx,
          Bool.cond_false]
        congr 1
        omega
      · simp [hin, hij, updStore]

/-- Processing pairwise-disjoint groups sequentially: each index is
only affected by its own group, evaluated against the initial store. -/
theorem foldl_groups_apply {β κ : Type}
    (F : (Nat → β) → κ × List Nat → (Nat → β))
    (hframe : ∀ st g i, i ∉ g.2 → F st g i = st i)
    (hcongr : ∀ st1 st2 g, (∀ j ∈ g.2, st1 j = st2 j) → ∀ i ∈ g.2, F st1 g i = F st2 g i)
    (groups : List (κ × List Nat))
    (hdisj : groups.Pairwise (fun g1 g2 => ∀ i, i ∈ g1.2 → i ∉ g2.2))
    (st : Nat → β) :
    (∀ i, (∀ g ∈ groups, i ∉ g.2) → (groups.foldl F st) i = st i) ∧
    (∀ g ∈ groups, ∀ i ∈ g.2, (groups.foldl F st) i = F st g i) := by
  induction groups generalizing st with
  | nil => exact ⟨fun i _ => rfl, fun g hg => absurd hg (by simp)⟩
  | cons g0 gs ih =>
    rcases List.pairwise_cons.mp hdisj with ⟨hg0, hgs⟩
    constructor
    · intro i hnone
      simp only [List.foldl_cons]
      rw [(ih hgs (F st g0)).1 i (fun g hg => hnone g (by simp [hg]))]
      exact hframe st g0 i (hnone g0 (by simp))
    · intro g hg i hi
      simp only [List.foldl_cons]
      rcases List.mem_cons.mp hg with rfl | hg2
      · exact (ih hgs (F st g)).1 i (fun g2 hg2 => hg0 g2 hg2 i hi)
      · rw [(ih hgs (F st g0)).2 g hg2 i hi]
        exact hcongr (F st g0) st g
          (fun j hj => hframe st g0 j (fun hjin => hg0 g hg2 j hjin hj)) i hi

theorem decDigitsRec_ne_nil (n : Nat) : decDigitsRec n ≠ [] := by
  rw [decDigitsRec]
  by_cases h : n / 10 = 0
  · simp [h]
  · simp [h]

theorem toDigitsCore_eq_decDigitsRec (fuel n : Nat) (ds : List Char) (h : n < fuel) :
    Nat.toDigitsCore 10 fuel n ds = decDigitsRec n ++ ds := by
  induction fuel generalizing n ds with
  | zero => omega
  | succ fuel ih =>
    simp only [Nat.toDigitsCore]
    by_cases h10 : n / 10 = 0
    · rw [if_pos h10, decDigitsRec, dif_pos h10]
      simp
    · have hpos : 0 < n := by
        by_contra hz
        simp [Nat.eq_zero_of_not_pos hz] at h10
      have hlt : n / 10 < fuel :=
        Nat.lt_of_lt_of_le (Nat.div_lt_self hpos (by omega)) (by omega)
      rw [if_neg h10, ih (n / 10) _ hlt]
      conv_rhs => rw [decDigitsRec]
      rw [dif_neg h10]
      simp

theorem digitChar_val (d : Nat) (h : d < 10) : (Nat.digitChar d).toNat - 48 = d := by
  interval_cases d <;> decide

theorem decDigitsRec_decode (n : Nat) :
    ∀ acc, (decDigitsRec n).foldl (fun acc c => acc * 10 + (c.toNat - 48)) acc =
      acc * 10 ^ (decDigitsRec n).length + n := by
  induction n using Nat.strong_induction_on with
  | _ n ih =>
    intro acc
    rw [decDigitsRec]
    by_cases h10 : n / 10 = 0
    · rw [dif_pos h10]
      have hn : n < 10 := by
        rcases Nat.lt_or_ge n 10 with h | h
        · exact h
        · exact absurd h10 (by
            have : n / 10 ≥ 1 := Nat.one_le_div_iff (by omega) |>.mpr h
            omega)
      have hmod : n % 10 = n := Nat.mod_eq_of_lt hn
      simp [digitChar_val (n % 10) (Nat.mod_lt n (by omega)), hmod,
        digitChar_val n hn]
    · have hpos : 0 < n := by
        by_contra hz
        simp [Nat.eq_zero_of_not_pos hz] at h10
      rw [dif_neg h10, List.foldl_append,
        ih (n / 10) (Nat.div_lt_self hpos (by omega)) acc]
      simp only [List.foldl_cons, List.foldl_nil, List.length_append,
        List.length_singleton, digitChar_val (n % 10) (Nat.mod_lt n (by omega))]
      have : acc * 10 ^ ((decDigitsRec (n / 10)).length + 1) =
          acc * 10 ^ (decDigitsRec (n / 10)).length * 10 := by ring
      rw [this]
      have hdm : n / 10 * 10 + n % 10 = n := by
        rw [Nat.mul_comm]
        exact Nat.div_add_mod n 10
      omega

theorem decDigitsRec_inj {a b : Nat} (h : decDigitsRec a = decDigitsRec b) : a = b := by
  have ha := decDigitsRec_decode a 0
  have hb := decDigitsRec_decode b 0
  rw [h] at ha
  simp at ha hb
  omega

theorem nat_repr_inj {a b : Nat} (h : Nat.repr a = Nat.repr b) : a = b := by
  unfold Nat.repr Nat.toDigits at h
  rw [toDigitsCore_eq_decDigitsRec (a + 1) a [] (by omega),
    toDigitsCore_eq_decDigitsRec (b + 1) b [] (by omega)] at h
  simp only [List.append_nil] at h
  refine decDigitsRec_inj ?_
  have := congrArg String.data h
  simpa [List.asString] using this

theorem nat_repr_ne_nil (n : Nat) : (Nat.repr n).data ≠ [] := by
  unfold Nat.repr Nat.toDigits
  rw [toDigitsCore_eq_decDigitsRec (n + 1) n [] (by omega)]
  simpa [List.asString] using decDigitsRec_ne_nil n

theorem lexLt_irrefl (l : List Nat) : lexLt l l = false := by
  induction l with
  | nil => rfl
  | cons a as ih => simp [lexLt, ih]

theorem lexLt_asymm (l1 l2 : List Nat) (h : lexLt l1 l2 = true) :
    lexLt l2 l1 = false := by
  induction l1 generalizing l2 with
  | nil =>
    cases l2 with
    | nil => simp [lexLt] at h
    | cons b bs => simp [lexLt]
  | cons a as ih =>
    cases l2 with
    | nil => simp [lexLt] at h
    | cons b bs =>
      simp only [lexLt] at h ⊢
      rcases Nat.lt_trichotomy a b with hab | hab | hab
      · rw [if_neg (by omega : ¬ b < a), if_pos hab]
      · subst hab
        rw [if_neg (by omega : ¬ a < a), if_neg (by omega : ¬ a < a)] at h ⊢
        exact ih bs h
      · rw [if_neg (by omega : ¬ a < b), if_pos hab] at h
        exact absurd h (by simp)

theorem lexLt_negtrans (l1 l2 l3 : List Nat)
    (h12 : lexLt l1 l2 = false) (h23 : lexLt l2 l3 = false) :
    lexLt l1 l3 = false := by
  induction l1 generalizing l2 l3 with
  | nil =>
    cases l2 with
    | nil =>
      cases l3 with
      | nil => rfl
      | cons c cs => simp [lexLt] at h23
    | cons b bs => simp [lexLt] at h12
  | cons a as ih =>
    cases l3 with
    | nil => rfl
    | cons c cs =>
      cases l2 with
      | nil => simp [lexLt] at h23
      | cons b bs =>
        simp only [lexLt] at h12 h23 ⊢
        by_cases hab : a < b
        · rw [if_pos hab] at h12
          exact absurd h12 (by simp)
        · by_cases hbc : b < c
          · rw [if_pos hbc] at h23
            exact absurd h23 (by simp)
          · rw [if_neg hab] at h12
            rw [if_neg hbc] at h23
            by_cases hba : b < a
            · rw [if_neg (by omega : ¬ a < c), if_pos (by omega : c < a)]
            · by_cases hcb : c < b
              · rw [if_neg (by omega : ¬ a < c), if_pos (by omega : c < a)]
              · rw [if_neg hba] at h12
                rw [if_neg hcb] at h23
                rw [if_neg (by omega : ¬ a < c), if_neg (by omega : ¬ c < a)]
                exact ih bs cs h12 h23

theorem dtLt_irrefl (a : PyDateTime) : dtLt a a = false := lexLt_irrefl _

theorem dtLt_asymm (a b : PyDateTime) (h : dtLt a b = true) : dtLt b a = false :=
  lexLt_asymm _ _ h

theorem dtLt_negtrans (a b c : PyDateTime) (h1 : dtLt a b = false)
    (h2 : dtLt b c = false) : dtLt a c = false :=
  lexLt_negtrans _ _ _ h1 h2

theorem asString_take_drop_asString (l : List Char) (n : Nat) :
    (l.take n).asString ++ (l.drop n).asString = l.asString := by
  apply String.ext
  simp [List.asString]

theorem splitext_append (s : String) : (splitext s).1 ++ (splitext s).2 = s := by
  unfold splitext
  by_cases h1 : (extRev s).length = (bnRev s).length
  · simp [h1]
  · by_cases h2 : ((bnRev s).drop ((extRev s).length + 1)).all (fun c => c = '.')
    · simp [h1, h2]
    · simp only [h1, h2, if_false, Bool.false_eq_true]
      rw [asString_take_drop_asString]
      apply String.ext
      simp [List.asString]

theorem foldl_upd_frame {β : Type} (f : β → β) (l : List Nat) (st : Nat → β) (i : Nat)
    (hi : i ∉ l) :
    (l.foldl (fun s j => updStore s j (f (s j))) st) i = st i := by
  induction l generalizing st with
  | nil => rfl
  | cons j l ih =>
    simp only [List.foldl_cons]
    rw [ih _ (fun h => hi (by simp [h]))]
    have : ¬ i = j := fun h => hi (by simp [h])
    simp [updStore, this]

theorem foldl_upd_enum_frame {β : Type} (f : Nat → β → β) (l : List Nat) (st : Nat → β)
    (n i : Nat) (hi : i ∉ l) :
    ((l.foldl (fun (p : (Nat → β) × Nat) j => (updStore p.1 j (f p.2 (p.1 j)), p.2 + 1))
        (st, n)).1) i = st i := by
  induction l generalizing st n with
  | nil => rfl
  | cons j l ih =>
    simp only [List.foldl_cons]
    rw [ih _ _ (fun h => hi (by simp [h]))]
    have : ¬ i = j := fun h => hi (by simp [h])
    simp [updStore, this]

theorem foldl_upd_agree {β : Type} (f : β → β) (l : List Nat) (S : Nat → Prop)
    (hl : ∀ j ∈ l, S j) (st1 st2 : Nat → β) (hagree : ∀ j, S j → st1 j = st2 j) :
    ∀ j, S j → (l.foldl (fun s j2 => updStore s j2 (f (s j2))) st1) j =
      (l.foldl (fun s j2 => updStore s j2 (f (s j2))) st2) j := by
  induction l generalizing st1 st2 with
  | nil => exact hagree
  | cons j0 l ih =>
    simp only [List.foldl_cons]
    refine ih (fun j hj => hl j (by simp [hj])) _ _ ?_
    intro j hS
    unfold updStore
    by_cases hj0 : j = j0
    · simp [hj0, hagree j0 (hl j0 (by simp))]
    · simp [hj0, hagree j hS]

theorem foldl_upd_enum_agree {β : Type} (f : Nat → β → β) (l : List Nat) (S : Nat → Prop)
    (hl : ∀ j ∈ l, S j) (st1 st2 : Nat → β) (n : Nat)
    (hagree : ∀ j, S j → st1 j = st2 j) :
    ∀ j, S j →
      ((l.foldl (fun (p : (Nat → β) × Nat) j2 => (updStore p.1 j2 (f p.2 (p.1 j2)), p.2 + 1))
        (st1, n)).1) j =
      ((l.foldl (fun (p : (Nat → β) × Nat) j2 => (updStore p.1 j2 (f p.2 (p.1 j2)), p.2 + 1))
        (st2, n)).1) j := by
  induction l generalizing st1 st2 n with
  | nil => exact hagree
  | cons j0 l ih =>
    simp only [List.foldl_cons]
    refine ih (fun j hj => hl j (by simp [hj])) _ _ _ ?_
    intro j hS
    unfold updStore
    by_cases hj0 : j = j0
    · simp [hj0, hagree j0 (hl j0 (by simp))]
    · simp [hj0, hagree j hS]

theorem insertBy_congr {α : Type} (lt1 lt2 : α → α → Bool) (x : α) (s : List α)
    (h : ∀ y ∈ s, lt1 y x = lt2 y x) : insertBy lt1 x s = insertBy lt2 x s := by
  induction s with
  | nil => rfl
  | cons y ys ih =>
    simp only [insertBy, h y (by simp)]
    by_cases hlt : lt2 y x
    · simp [hlt, ih (fun z hz => h z (by simp [hz]))]
    · simp [hlt]

theorem sortBy_congr {α : Type} (lt1 lt2 : α → α → Bool) (l : List α)
    (h : ∀ a ∈ l, ∀ b ∈ l, lt1 a b = lt2 a b) : sortBy lt1 l = sortBy lt2 l := by
  induction l with
  | nil => rfl
  | cons x xs ih =>
    simp only [sortBy]
    rw [ih (fun a ha b hb => h a (by simp [ha]) b (by simp [hb]))]
    exact insertBy_congr _ _ _ _ (fun y hy =>
      h y (by simp [(mem_sortBy lt2 xs y).mp hy]) x (by simp))

theorem applyPolicy_frame (policy : DupPolicy) (st : Store) (tp : String)
    (g : List Nat) (i : Nat) (hi : i ∉ g) :
    applyPolicy policy st tp g i = st i := by
  unfold applyPolicy
  by_cases hlen : g.length ≤ 1
  · simp [hlen]
  · rw [if_neg hlen]
    have hit : i ∉ g.tail := fun h => hi (List.mem_of_mem_tail h)
    cases policy with
    | skip =>
        dsimp only
        exact foldl_upd_frame (fun r => setStatus r .skipped (some "Duplicate path"))
          g.tail st i hit
    | overwrite =>
        dsimp only
        refine foldl_upd_frame (fun r => setStatus r .skipped (some "Older duplicate"))
          (sortBy (ltModDesc st) g).tail st i ?_
        intro h
        exact hi ((mem_sortBy _ _ _).mp (List.mem_of_mem_tail h))
    | rename =>
        dsimp only
        exact foldl_upd_enum_frame (fun n r => setTargetPath r (renamePath tp n))
          g.tail st 1 i hit
    | ask => rfl

theorem applyPolicy_congr (policy : DupPolicy) (st1 st2 : Store) (tp : String)
    (g : List Nat) (hagree : ∀ j ∈ g, st1 j = st2 j) (i : Nat) (hi : i ∈ g) :
    applyPolicy policy st1 tp g i = applyPolicy policy st2 tp g i := by
  unfold applyPolicy
  by_cases hlen : g.length ≤ 1
  · simp [hlen, hagree i hi]
  · rw [if_neg hlen, if_neg hlen]
    cases policy with
    | skip =>
        dsimp only
        exact foldl_upd_agree (fun r => setStatus r .skipped (some "Duplicate path"))
          g.tail (fun j => j ∈ g)
          (fun j hj => List.mem_of_mem_tail hj) st1 st2 hagree i hi
    | overwrite =>
        have hsort : sortBy (ltModDesc st1) g = sortBy (ltModDesc st2) g := by
          refine sortBy_congr _ _ _ ?_
          intro a ha b hb
          unfold ltModDesc
          rw [hagree a ha, hagree b hb]
        dsimp only
        rw [hsort]
        refine foldl_upd_agree (fun r => setStatus r .skipped (some "Older duplicate"))
          (sortBy (ltModDesc st2) g).tail (fun j => j ∈ g) ?_ st1 st2 hagree i hi
        intro j hj
        exact (mem_sortBy _ _ _).mp (List.mem_of_mem_tail hj)
    | rename =>
        dsimp only
        exact foldl_upd_enum_agree (fun n r => setTargetPath r (renamePath tp n))
          g.tail (fun j => j ∈ g)
          (fun j hj => List.mem_of_mem_tail hj) st1 st2 1 hagree i hi
    | ask => exact hagree i hi

theorem applyPolicy_skip_apply (st : Store) (tp : String) (g : List Nat)
    (hnd : g.Nodup) (hlen : 2 ≤ g.length) (i : Nat) :
    applyPolicy .skip st tp g i =
      if i ∈ g.tail then setStatus (st i) .skipped (some "Duplicate path") else st i := by
  unfold applyPolicy
  rw [if_neg (by omega)]
  dsimp only
  exact foldl_upd_apply (fun r => setStatus r .skipped (some "Duplicate path"))
    g.tail st i hnd.tail

theorem applyPolicy_overwrite_apply (st : Store) (tp : String) (g : List Nat)
    (hnd : g.Nodup) (hlen : 2 ≤ g.length) (i : Nat) :
    applyPolicy .overwrite st tp g i =
      if i ∈ (sortBy (ltModDesc st) g).tail then
        setStatus (st i) .skipped (some "Older duplicate")
      else st i := by
  unfold applyPolicy
  rw [if_neg (by omega)]
  dsimp only
  exact foldl_upd_apply (fun r => setStatus r .skipped (some "Older duplicate"))
    (sortBy (ltModDesc st) g).tail st i
    (((perm_sortBy (ltModDesc st) g).nodup_iff.mpr hnd).tail)

theorem applyPolicy_rename_apply (st : Store) (tp : String) (g : List Nat)
    (hnd : g.Nodup) (hlen : 2 ≤ g.length) (i : Nat) :
    applyPolicy .rename st tp g i =
      if i ∈ g.tail then
        setTargetPath (st i) (renamePath tp (1 + g.tail.indexOf i))
      else st i := by
  unfold applyPolicy
  rw [if_neg (by omega)]
  dsimp only
  exact foldl_upd_enum_apply (fun n r => setTargetPath r (renamePath tp n))
    g.tail st 1 i hnd.tail

/-- Master description of one `resolve_path_conflicts` run: records in
no colliding group are untouched, and each record in a group is
transformed by its own group's policy application, evaluated against
the initial store. -/
theorem resolvePathConflicts_apply (st : Store) (idxs : List Nat) (policy : DupPolicy) :
    (∀ i, (∀ g ∈ pathGroups st idxs, i ∉ g.2) →
        resolvePathConflicts st idxs policy i = st i) ∧
    (∀ g ∈ pathGroups st idxs, ∀ i ∈ g.2,
        resolvePathConflicts st idxs policy i = applyPolicy policy st g.1 g.2 i) := by
  have hdisj : (pathGroups st idxs).Pairwise (fun g1 g2 => ∀ i, i ∈ g1.2 → i ∉ g2.2) := by
    unfold pathGroups
    rw [buildGroups_eq_groupsBy]
    exact groupsBy_pairwise_disjoint _ _
  exact foldl_groups_apply (fun s g => applyPolicy policy s g.1 g.2)
    (fun s g i hi => applyPolicy_frame policy s g.1 g.2 i hi)
    (fun s1 s2 g hagree i hi => applyPolicy_congr policy s1 s2 g.1 g.2 hagree i hi)
    (pathGroups st idxs) hdisj st

@[simp] theorem setStatus_status (r : FileInfo) (s : Status) (m : Option String) :
    (setStatus r s m).status = s := rfl

@[simp] theorem setStatus_targetPath (r : FileInfo) (s : Status) (m : Option String) :
    (setStatus r s m).targetPath = r.targetPath := rfl

@[simp] theorem setStatus_lastModified (r : FileInfo) (s : Status) (m : Option String) :
    (setStatus r s m).lastModified = r.lastModified := rfl

theorem setStatus_errorMessage_of_truthy (r : FileInfo) (s : Status) (m : Option String)
    (h : truthyStr m = true) : (setStatus r s m).errorMessage = m := by
  simp [setStatus, h]

@[simp] theorem setTargetPath_targetPath (r : FileInfo) (p : String) :
    (setTargetPath r p).targetPath = some p := rfl

@[simp] theorem setTargetPath_status (r : FileInfo) (p : String) :
    (setTargetPath r p).status = r.status := rfl

theorem applyPolicy_short (policy : DupPolicy) (st : Store) (tp : String)
    (g : List Nat) (h : g.length ≤ 1) : applyPolicy policy st tp g = st := by
  unfold applyPolicy
  rw [if_pos h]

theorem pathGroups_eq (st : Store) (idxs : List Nat) :
    pathGroups st idxs = groupsBy (targetKey st) (workList st idxs) :=
  buildGroups_eq_groupsBy _ _

theorem mem_workList_hasTarget (st : Store) (idxs : List Nat) :
    ∀ i ∈ workList st idxs, hasTarget (st i) = true := by
  unfold workList
  have haux : ∀ (l : List Nat) (acc : List Nat),
      (∀ i ∈ acc, hasTarget (st i) = true) →
      ∀ i ∈ l.foldl (fun acc i =>
        if hasTarget (st i) then
          acc ++ i :: (st i).associated.filter (fun j => hasTarget (st j))
        else acc) acc, hasTarget (st i) = true := by
    intro l
    induction l with
    | nil => exact fun acc hacc i hi => hacc i hi
    | cons x xs ih =>
      intro acc hacc i hi
      simp only [List.foldl_cons] at hi
      refine ih _ ?_ i hi
      intro j hj
      by_cases hx : hasTarget (st x)
      · rw [if_pos hx] at hj
        rcases List.mem_append.mp hj with hj1 | hj2
        · exact hacc j hj1
        · rcases List.mem_cons.mp hj2 with rfl | hj3
          · exact hx
          · exact (List.mem_filter.mp hj3).2
      · rw [if_neg hx] at hj
        exact hacc j hj
  exact haux idxs [] (by simp)

theorem hasTarget_targetPath (r : FileInfo) (h : hasTarget r = true) :
    r.targetPath = some (r.targetPath.getD "") ∧ r.targetPath.getD "" ≠ "" := by
  unfold hasTarget truthyStr at h
  cases htp : r.targetPath with
  | none =>
    rw [htp] at h
    simp at h
  | some s =>
    rw [htp] at h
    simp only [Option.getD_some] at h ⊢
    exact ⟨trivial, by simpa using h⟩

theorem two_le_length_of_mem_ne {α : Type} {l : List α} {a b : α}
    (ha : a ∈ l) (hb : b ∈ l) (hne : a ≠ b) : 2 ≤ l.length := by
  cases l with
  | nil => simp at ha
  | cons x xs =>
    cases xs with
    | nil =>
      rcases List.mem_singleton.mp ha with rfl
      rcases List.mem_singleton.mp hb with rfl
      exact absurd rfl hne
    | cons y ys => simp [List.length]

theorem groupsBy_mem_self {κ : Type} [DecidableEq κ] (key : Nat → κ) (l : List Nat)
    (i : Nat) (hi : i ∈ l) :
    (key i, l.filter (fun j => key j = key i)) ∈ groupsBy key l :=
  List.mem_map.mpr ⟨key i, (mem_firstDedup _ _).mpr (List.mem_map_of_mem key hi), rfl⟩

theorem string_append_length (a b : String) : (a ++ b).length = a.length + b.length := by
  show (a ++ b).data.length = a.data.length + b.data.length
  simp

theorem renamePath_length (tp : String) (i : Nat) :
    (renamePath tp i).length = tp.length + 1 + (Nat.repr i).length := by
  unfold renamePath
  rw [string_append_length, string_append_length, string_append_length]
  have h := congrArg String.length (splitext_append tp)
  rw [string_append_length] at h
  have h1 : ("_" : String).length = 1 := rfl
  omega

theorem nat_repr_length_pos (n : Nat) : 1 ≤ (Nat.repr n).length := by
  show 1 ≤ (Nat.repr n).data.length
  have := nat_repr_ne_nil n
  cases h : (Nat.repr n).data with
  | nil => exact absurd h this
  | cons c cs => simp

theorem renamePath_ne_base (tp : String) (i : Nat) : renamePath tp i ≠ tp := by
  intro h
  have := congrArg String.length h
  rw [renamePath_length] at this
  have := nat_repr_length_pos i
  omega

theorem renamePath_inj (tp : String) {i j : Nat}
    (h : renamePath tp i = renamePath tp j) : i = j := by
  unfold renamePath at h
  have hd := congrArg String.data h
  simp only [String.data_append, List.append_assoc] at hd
  have hd2 := List.append_cancel_left hd
  have hd3 := List.append_cancel_left hd2
  have hd4 := List.append_cancel_right hd3
  exact nat_repr_inj (String.ext hd4)

theorem mem_not_tail_eq {α : Type} {l : List α} {a b : α}
    (ha : a ∈ l) (hb : b ∈ l) (hat : a ∉ l.tail) (hbt : b ∉ l.tail) : a = b := by
  cases l with
  | nil => simp at ha
  | cons x xs =>
    simp only [List.tail_cons] at hat hbt
    rcases List.mem_cons.mp ha with rfl | h2
    · rcases List.mem_cons.mp hb with h3 | h3
      · exact h3.symm
      · exact absurd h3 hbt
    · exact absurd h2 hat

/-- C1 (amended): after `resolve_path_conflicts` with policy `skip` or
`overwrite` on a working set (listed records plus sidecars, all
distinct) whose statuses are `pending`, no two records that still have
status `pending` share a target path.  As frozen, the claim also
covers `rename`, where it fails: a renamed path can collide with the
untouched path of a different group (see the counterexample). -/
theorem c1_resolve_no_pending_target_collision (st : Store) (idxs : List Nat)
    (policy : DupPolicy) (hpol : policy = .skip ∨ policy = .overwrite)
    (hnd : (workList st idxs).Nodup)
    (_hpend : ∀ i ∈ workList st idxs, (st i).status = .pending)
    (i : Nat) (hi : i ∈ workList st idxs) (j : Nat) (hj : j ∈ workList st idxs)
    (hne : i ≠ j)
    (hpi : (resolvePathConflicts st idxs policy i).status = .pending)
    (hpj : (resolvePathConflicts st idxs policy j).status = .pending) :
    (resolvePathConflicts st idxs policy i).targetPath ≠
      (resolvePathConflicts st idxs policy j).targetPath := by
  intro heq
  have happly := (resolvePathConflicts_apply st idxs policy).2
  have hmemg : ∀ x, x ∈ workList st idxs →
      x ∈ (workList st idxs).filter (fun y => targetKey st y = targetKey st x) :=
    fun x hx => List.mem_filter.mpr ⟨hx, by simp⟩
  have hgroups : ∀ x, x ∈ workList st idxs →
      resolvePathConflicts st idxs policy x =
        applyPolicy policy st (targetKey st x)
          ((workList st idxs).filter (fun y => targetKey st y = targetKey st x)) x := by
    intro x hx
    refine happly (targetKey st x,
      (workList st idxs).filter (fun y => targetKey st y = targetKey st x)) ?_ x (hmemg x hx)
    rw [pathGroups_eq]
    exact groupsBy_mem_self _ _ x hx
  have htp : ∀ x, x ∈ workList st idxs →
      (resolvePathConflicts st idxs policy x).targetPath = (st x).targetPath := by
    intro x hx
    rw [hgroups x hx]
    have hgnd : ((workList st idxs).filter
        (fun y => targetKey st y = targetKey st x)).Nodup := hnd.filter _
    by_cases hlen : ((workList st idxs).filter
        (fun y => targetKey st y = targetKey st x)).length ≤ 1
    · rw [applyPolicy_short _ _ _ _ hlen]
    · rcases hpol with rfl | rfl
      · rw [applyPolicy_skip_apply st _ _ hgnd (by omega) x]
        by_cases hx2 : x ∈ ((workList st idxs).filter
            (fun y => targetKey st y = targetKey st x)).tail
        · rw [if_pos hx2, setStatus_targetPath]
        · rw [if_neg hx2]
      · rw [applyPolicy_overwrite_apply st _ _ hgnd (by omega) x]
        by_cases hx2 : x ∈ (sortBy (ltModDesc st) ((workList st idxs).filter
            (fun y => targetKey st y = targetKey st x))).tail
        · rw [if_pos hx2, setStatus_targetPath]
        · rw [if_neg hx2]
  have hkey : targetKey st i = targetKey st j := by
    unfold targetKey
    rw [← htp i hi, ← htp j hj, heq]
  have contra : ∀ (g : List Nat), g.Nodup → 2 ≤ g.length → i ∈ g → j ∈ g →
      resolvePathConflicts st idxs policy i =
        applyPolicy policy st (targetKey st i) g i →
      resolvePathConflicts st idxs policy j =
        applyPolicy policy st (targetKey st i) g j →
      False := by
    intro g hgnd hglen hig hjg hri hrj
    rcases hpol with rfl | rfl
    · have hit : i ∉ g.tail := by
        intro hmem
        rw [hri, applyPolicy_skip_apply st _ _ hgnd hglen i, if_pos hmem] at hpi
        simp at hpi
      have hjt : j ∉ g.tail := by
        intro hmem
        rw [hrj, applyPolicy_skip_apply st _ _ hgnd hglen j, if_pos hmem] at hpj
        simp at hpj
      exact hne (mem_not_tail_eq hig hjg hit hjt)
    · have his : i ∈ sortBy (ltModDesc st) g := (mem_sortBy _ _ _).mpr hig
      have hjs : j ∈ sortBy (ltModDesc st) g := (mem_sortBy _ _ _).mpr hjg
      have hit : i ∉ (sortBy (ltModDesc st) g).tail := by
        intro hmem
        rw [hri, applyPolicy_overwrite_apply st _ _ hgnd hglen i, if_pos hmem] at hpi
        simp at hpi
      have hjt : j ∉ (sortBy (ltModDesc st) g).tail := by
        intro hmem
        rw [hrj, applyPolicy_overwrite_apply st _ _ hgnd hglen j, if_pos hmem] at hpj
        simp at hpj
      exact hne (mem_not_tail_eq his hjs hit hjt)
  have hjg : j ∈ (workList st idxs).filter
      (fun y => targetKey st y = targetKey st i) :=
    List.mem_filter.mpr ⟨hj, by simp [hkey]⟩
  have hrj : resolvePathConflicts st idxs policy j =
      applyPolicy policy st (targetKey st i)
        ((workList st idxs).filter (fun y => targetKey st y = targetKey st i)) j := by
    have h2 := hgroups j hj
    rw [← hkey] at h2
    exact h2
  exact contra _ (hnd.filter _)
    (two_le_length_of_mem_ne (hmemg i hi) hjg hne)
    (hmemg i hi) hjg (hgroups i hi) hrj

theorem mem_pathGroups_elim (st : Store) (idxs : List Nat) (g : String × List Nat)
    (hg : g ∈ pathGroups st idxs) :
    g.2 = (workList st idxs).filter (fun y => targetKey st y = g.1) ∧ g.2 ≠ [] := by
  rw [pathGroups_eq] at hg
  obtain ⟨k, hk, rfl⟩ := List.mem_map.mp hg
  refine ⟨rfl, ?_⟩
  have hk2 : k ∈ (workList st idxs).map (targetKey st) := (mem_firstDedup _ _).mp hk
  obtain ⟨x, hx, hxk⟩ := List.mem_map.mp hk2
  intro hnil
  have hnil2 : (workList st idxs).filter (fun y => targetKey st y = k) = [] := hnil
  have hmem2 : x ∈ (workList st idxs).filter (fun y => targetKey st y = k) :=
    List.mem_filter.mpr ⟨hx, by simp [hxk]⟩
  rw [hnil2] at hmem2
  simp at hmem2

theorem mem_group_targetPath (st : Store) (idxs : List Nat) (g : String × List Nat)
    (hg : g ∈ pathGroups st idxs) (x : Nat) (hx : x ∈ g.2) :
    (st x).targetPath = some g.1 := by
  obtain ⟨hfil, -⟩ := mem_pathGroups_elim st idxs g hg
  rw [hfil] at hx
  obtain ⟨hws, hkey⟩ := List.mem_filter.mp hx
  have hht := mem_workList_hasTarget st idxs x hws
  obtain ⟨hsome, -⟩ := hasTarget_targetPath (st x) hht
  have : targetKey st x = g.1 := by simpa using hkey
  unfold targetKey at this
  rw [hsome, this]

/-- C5: under the `rename` policy, in every colliding group of
`path_groups` the first record keeps its target path `{base}{ext}`,
the i-th subsequent record's target becomes `{base}_{i}{ext}` (same
directory, 1-indexed), and the final target paths of the group are
pairwise distinct. -/
theorem c5_rename_group_spec (st : Store) (idxs : List Nat)
    (hnd : (workList st idxs).Nodup)
    (g : String × List Nat) (hg : g ∈ pathGroups st idxs) :
    ∃ g0 rest, g.2 = g0 :: rest ∧
      (resolvePathConflicts st idxs .rename g0).targetPath = (st g0).targetPath ∧
      (st g0).targetPath = some ((splitext g.1).1 ++ (splitext g.1).2) ∧
      (∀ n (hn : n < rest.length),
        (resolvePathConflicts st idxs .rename (rest.get ⟨n, hn⟩)).targetPath =
          some ((splitext g.1).1 ++ "_" ++ Nat.repr (n + 1) ++ (splitext g.1).2)) ∧
      (g.2.map (fun x => (resolvePathConflicts st idxs .rename x).targetPath)).Nodup := by
  obtain ⟨hfil, hne⟩ := mem_pathGroups_elim st idxs g hg
  have hgnd : g.2.Nodup := hfil ▸ hnd.filter _
  have happly := (resolvePathConflicts_apply st idxs .rename).2 g hg
  obtain ⟨g0, rest, hgt⟩ : ∃ g0 rest, g.2 = g0 :: rest := by
    cases hc : g.2 with
    | nil => exact absurd hc hne
    | cons a b => exact ⟨a, b, rfl⟩
  have hg0 : g0 ∈ g.2 := by rw [hgt]; simp
  have hg0t : (st g0).targetPath = some g.1 := mem_group_targetPath st idxs g hg g0 hg0
  have hbase : (splitext g.1).1 ++ (splitext g.1).2 = g.1 := splitext_append g.1
  have htail : g.2.tail = rest := by
    rw [hgt]
    rfl
  have hrnd : rest.Nodup := by
    rw [hgt] at hgnd
    exact (List.nodup_cons.mp hgnd).2
  have hres0 : (resolvePathConflicts st idxs .rename g0).targetPath =
      (st g0).targetPath := by
    rw [happly g0 hg0]
    by_cases hlen : g.2.length ≤ 1
    · rw [applyPolicy_short _ _ _ _ hlen]
    · rw [applyPolicy_rename_apply st g.1 g.2 hgnd (by omega) g0]
      have hnot : g0 ∉ g.2.tail := by
        rw [htail]
        rw [hgt] at hgnd
        exact (List.nodup_cons.mp hgnd).1
      rw [if_neg hnot]
  have hresn : ∀ n (hn : n < rest.length),
      (resolvePathConflicts st idxs .rename (rest.get ⟨n, hn⟩)).targetPath =
        some (renamePath g.1 (n + 1)) := by
    intro n hn
    have hlen : 2 ≤ g.2.length := by
      rw [hgt]
      simp only [List.length_cons]
      omega
    have hmem : rest.get ⟨n, hn⟩ ∈ g.2 := by
      rw [hgt]
      exact List.mem_cons_of_mem _ (rest.get_mem _ _)
    rw [happly _ hmem, applyPolicy_rename_apply st g.1 g.2 hgnd hlen _]
    have hmemt : rest.get ⟨n, hn⟩ ∈ g.2.tail := by
      rw [htail]
      exact rest.get_mem _ _
    rw [if_pos hmemt, setTargetPath_targetPath, htail]
    have hidx : rest.indexOf (rest.get ⟨n, hn⟩) = n := by
      have := List.indexOf_getElem hrnd n hn
      simpa using this
    rw [hidx]
    have h1n : 1 + n = n + 1 := by omega
    rw [h1n]
  refine ⟨g0, rest, hgt, hres0, by rw [hg0t, hbase], ?_, ?_⟩
  · intro n hn
    rw [hresn n hn]
    rfl
  · have hmapeq : rest.map (fun x => (resolvePathConflicts st idxs .rename x).targetPath)
        = (List.range rest.length).map (fun n => some (renamePath g.1 (n + 1))) := by
      refine List.ext_get (by simp) ?_
      intro n h1 h2
      simp only [List.get_eq_getElem, List.getElem_map, List.getElem_range]
      have hn : n < rest.length := by simpa using h1
      have := hresn n hn
      simpa using this
    rw [hgt, List.map_cons, hmapeq]
    refine List.nodup_cons.mpr ⟨?_, ?_⟩
    · intro hmem
      rw [hres0, hg0t] at hmem
      obtain ⟨m, -, hmeq⟩ := List.mem_map.mp hmem
      have : renamePath g.1 (m + 1) = g.1 := by
        injection hmeq
      exact renamePath_ne_base g.1 (m + 1) this
    · refine List.Nodup.map ?_ (List.nodup_range _)
      intro a b hab
      simp only [Option.some.injEq] at hab
      have := renamePath_inj g.1 hab
      omega

/-- C4 (amended reason string): under the `overwrite` policy, in every
colliding group exactly one member stays `pending` — the head of the
descending stable sort, i.e. a member with the maximum last-modified
timestamp, the earliest in discovery order among ties — and every
other member ends `skipped` with reason "Older duplicate" (the code
capitalizes the first letter; the frozen claim's "older duplicate"
does not occur). -/
theorem c4_overwrite_group_spec (st : Store) (idxs : List Nat)
    (hnd : (workList st idxs).Nodup)
    (hpend : ∀ i ∈ workList st idxs, (st i).status = .pending)
    (g : String × List Nat) (hg : g ∈ pathGroups st idxs) (hlen : 2 ≤ g.2.length) :
    ∃ m t l1 l2, sortBy (ltModDesc st) g.2 = m :: t ∧ g.2 = l1 ++ m :: l2 ∧
      (resolvePathConflicts st idxs .overwrite m).status = .pending ∧
      (∀ y ∈ g.2, dtLt (st m).lastModified (st y).lastModified = false) ∧
      (∀ y ∈ l1, dtLt (st y).lastModified (st m).lastModified = true) ∧
      (∀ j ∈ g.2, j ≠ m →
        (resolvePathConflicts st idxs .overwrite j).status = .skipped ∧
        (resolvePathConflicts st idxs .overwrite j).errorMessage =
          some "Older duplicate") := by
  obtain ⟨hfil, hne⟩ := mem_pathGroups_elim st idxs g hg
  have hgnd : g.2.Nodup := hfil ▸ hnd.filter _
  have happly := (resolvePathConflicts_apply st idxs .overwrite).2 g hg
  have hirr : ∀ a, ltModDesc st a a = false := fun a => dtLt_irrefl _
  have hasym : ∀ a b, ltModDesc st a b = true → ltModDesc st b a = false :=
    fun a b h => dtLt_asymm _ _ h
  have hnt : ∀ a b c, ltModDesc st a b = false → ltModDesc st b c = false →
      ltModDesc st a c = false := by
    intro a b c h1 h2
    exact dtLt_negtrans _ _ _ h2 h1
  obtain ⟨m, t, l1, l2, hsort, hdec, hpre, hmax⟩ :=
    sortBy_first_spec (ltModDesc st) hirr hasym hnt g.2 hne
  have hmg : m ∈ g.2 := by rw [hdec]; simp
  have hsnd : (sortBy (ltModDesc st) g.2).Nodup :=
    (perm_sortBy (ltModDesc st) g.2).nodup_iff.mpr hgnd
  have hmt : m ∉ t := by
    rw [hsort] at hsnd
    exact (List.nodup_cons.mp hsnd).1
  have hstail : (sortBy (ltModDesc st) g.2).tail = t := by
    rw [hsort]
    rfl
  refine ⟨m, t, l1, l2, hsort, hdec, ?_, ?_, ?_, ?_⟩
  · rw [happly m hmg, applyPolicy_overwrite_apply st g.1 g.2 hgnd hlen m,
      hstail, if_neg hmt]
    refine hpend m ?_
    rw [hfil] at hmg
    exact (List.mem_filter.mp hmg).1
  · intro y hy
    have h2 := hmax y hy
    unfold ltModDesc at h2
    exact h2
  · intro y hy
    have h2 := hpre y hy
    unfold ltModDesc at h2
    exact h2
  · intro j hjg hjm
    have hjs : j ∈ sortBy (ltModDesc st) g.2 := (mem_sortBy _ _ _).mpr hjg
    have hjt : j ∈ t := by
      rw [hsort] at hjs
      rcases List.mem_cons.mp hjs with rfl | h2
      · exact absurd rfl hjm
      · exact h2
    rw [happly j hjg, applyPolicy_overwrite_apply st g.1 g.2 hgnd hlen j,
      hstail, if_pos hjt]
    refine ⟨by simp, ?_⟩
    rw [setStatus_errorMessage_of_truthy _ _ _ (by decide)]

/-- C1 counterexample: with the `rename` policy (allowed by the frozen
claim, which only excludes `ask`), renaming the second collider of the
`/dst/x.jpg` group to `/dst/x_1.jpg` collides with the untouched
pending record of the singleton `/dst/x_1.jpg` group: two pending
records share a target path after resolution. -/
theorem c1_counterexample :
    (∀ i ∈ workList c1Store [0, 1, 2], (c1Store i).status = .pending) ∧
    (workList c1Store [0, 1, 2]).Nodup ∧
    1 ∈ workList c1Store [0, 1, 2] ∧ 2 ∈ workList c1Store [0, 1, 2] ∧
    (resolvePathConflicts c1Store [0, 1, 2] .rename 1).status = .pending ∧
    (resolvePathConflicts c1Store [0, 1, 2] .rename 2).status = .pending ∧
    (resolvePathConflicts c1Store [0, 1, 2] .rename 1).targetPath =
      (resolvePathConflicts c1Store [0, 1, 2] .rename 2).targetPath ∧
    (resolvePathConflicts c1Store [0, 1, 2] .rename 1).targetPath =
      some "/dst/x_1.jpg" := by
  decide

/-- C4 counterexample: the loser of an `overwrite` collision is
skipped with reason "Older duplicate", not the claimed
"older duplicate". -/
theorem c4_counterexample :
    (∀ i ∈ workList c4Store [0, 1], (c4Store i).status = .pending) ∧
    (workList c4Store [0, 1]).Nodup ∧
    (resolvePathConflicts c4Store [0, 1] .overwrite 1).status = .pending ∧
    (resolvePathConflicts c4Store [0, 1] .overwrite 0).status = .skipped ∧
    (resolvePathConflicts c4Store [0, 1] .overwrite 0).errorMessage =
      some "Older duplicate" ∧
    (resolvePathConflicts c4Store [0, 1] .overwrite 0).errorMessage ≠
      some "older duplicate" := by
  decide

theorem c1_witness :
    (resolvePathConflicts twoTargetStore [0, 1] .skip 0).targetPath ≠
      (resolvePathConflicts twoTargetStore [0, 1] .skip 1).targetPath :=
  c1_resolve_no_pending_target_collision twoTargetStore [0, 1] .skip (Or.inl rfl)
    (by decide) (by decide) 0 (by decide) 1 (by decide) (by decide) (by decide)
    (by decide)

theorem c4_witness :
    ∃ m t l1 l2, sortBy (ltModDesc c4Store) [0, 1] = m :: t ∧
      ([0, 1] : List Nat) = l1 ++ m :: l2 ∧
      (resolvePathConflicts c4Store [0, 1] .overwrite m).status = .pending ∧
      (∀ y ∈ ([0, 1] : List Nat),
        dtLt (c4Store m).lastModified (c4Store y).lastModified = false) ∧
      (∀ y ∈ l1, dtLt (c4Store y).lastModified (c4Store m).lastModified = true) ∧
      (∀ j ∈ ([0, 1] : List Nat), j ≠ m →
        (resolvePathConflicts c4Store [0, 1] .overwrite j).status = .skipped ∧
        (resolvePathConflicts c4Store [0, 1] .overwrite j).errorMessage =
          some "Older duplicate") :=
  c4_overwrite_group_spec c4Store [0, 1] (by decide) (by decide)
    ("/dst/x.jpg", [0, 1]) (by decide) (by decide)

theorem c5_witness :
    ∃ g0 rest, ([0, 1] : List Nat) = g0 :: rest ∧
      (resolvePathConflicts c1Store [0, 1, 2] .rename g0).targetPath =
        (c1Store g0).targetPath ∧
      (c1Store g0).targetPath =
        some ((splitext "/dst/x.jpg").1 ++ (splitext "/dst/x.jpg").2) ∧
      (∀ n (hn : n < rest.length),
        (resolvePathConflicts c1Store [0, 1, 2] .rename (rest.get ⟨n, hn⟩)).targetPath =
          some ((splitext "/dst/x.jpg").1 ++ "_" ++ Nat.repr (n + 1) ++
            (splitext "/dst/x.jpg").2)) ∧
      (([0, 1] : List Nat).map
        (fun x => (resolvePathConflicts c1Store [0, 1, 2] .rename x).targetPath)).Nodup :=
  c5_rename_group_spec c1Store [0, 1, 2] (by decide) ("/dst/x.jpg", [0, 1]) (by decide)

theorem mainSubSplit_fst_subset (exts : List String) (st : Store) (g : List Nat)
    (m : Nat) (hm : m ∈ (mainSubSplit exts st g).1) : m ∈ g := by
  unfold mainSubSplit at hm
  by_cases hc : g.filter (fun i => !(isSidecar exts (st i))) = [] ∧
      g.filter (fun i => isSidecar exts (st i)) ≠ []
  · rw [if_pos hc] at hm
    exact (List.mem_filter.mp (List.take_subset _ _ hm)).1
  · rw [if_neg hc] at hm
    exact (List.mem_filter.mp hm).1

theorem mainSubSplit_snd_subset (exts : List String) (st : Store) (g : List Nat)
    (s : Nat) (hs : s ∈ (mainSubSplit exts st g).2) :
    s ∈ g ∧ isSidecar exts (st s) = true := by
  unfold mainSubSplit at hs
  by_cases hc : g.filter (fun i => !(isSidecar exts (st i))) = [] ∧
      g.filter (fun i => isSidecar exts (st i)) ≠ []
  · rw [if_pos hc] at hs
    have := List.mem_filter.mp (List.drop_subset _ _ hs)
    exact ⟨this.1, this.2⟩
  · rw [if_neg hc] at hs
    have := List.mem_filter.mp hs
    exact ⟨this.1, this.2⟩

theorem mainSubSplit_fst_nodup (exts : List String) (st : Store) (g : List Nat)
    (hg : g.Nodup) : (mainSubSplit exts st g).1.Nodup := by
  unfold mainSubSplit
  by_cases hc : g.filter (fun i => !(isSidecar exts (st i))) = [] ∧
      g.filter (fun i => isSidecar exts (st i)) ≠ []
  · rw [if_pos hc]
    exact (List.take_sublist _ _).nodup (hg.filter _)
  · rw [if_neg hc]
    exact hg.filter _

theorem mainSubSplit_not_both (exts : List String) (st : Store) (g : List Nat)
    (hg : g.Nodup) (j : Nat) (hj : j ∈ (mainSubSplit exts st g).2) :
    j ∉ (mainSubSplit exts st g).1 := by
  unfold mainSubSplit at hj ⊢
  by_cases hc : g.filter (fun i => !(isSidecar exts (st i))) = [] ∧
      g.filter (fun i => isSidecar exts (st i)) ≠ []
  · rw [if_pos hc] at hj ⊢
    intro hj1
    have hnd : (g.filter (fun i => isSidecar exts (st i))).Nodup := hg.filter _
    have hd : List.Disjoint ((g.filter (fun i => isSidecar exts (st i))).take 1)
        ((g.filter (fun i => isSidecar exts (st i))).drop 1) := by
      refine List.disjoint_of_nodup_append ?_
      rw [List.take_append_drop]
      exact hnd
    exact hd hj1 hj
  · rw [if_neg hc] at hj ⊢
    intro hj1
    have h1 := (List.mem_filter.mp hj1).2
    have h2 := (List.mem_filter.mp hj).2
    rw [h2] at h1
    simp at h1

theorem mainSubSplit_fst_len (exts : List String) (st : Store) (g : List Nat)
    (hlen : (g.filter (fun i => !(isSidecar exts (st i)))).length ≤ 1) :
    (mainSubSplit exts st g).1.length ≤ 1 := by
  unfold mainSubSplit
  by_cases hc : g.filter (fun i => !(isSidecar exts (st i))) = [] ∧
      g.filter (fun i => isSidecar exts (st i)) ≠ []
  · rw [if_pos hc]
    exact List.length_take_le 1 _
  · rw [if_neg hc]
    exact hlen

theorem mainSubSplit_congr (exts : List String) (st1 st2 : Store) (g : List Nat)
    (hagree : ∀ j ∈ g, st1 j = st2 j) :
    mainSubSplit exts st1 g = mainSubSplit exts st2 g := by
  unfold mainSubSplit
  have h1 : g.filter (fun i => !(isSidecar exts (st1 i))) =
      g.filter (fun i => !(isSidecar exts (st2 i))) :=
    List.filter_congr (fun x hx => by rw [hagree x hx])
  have h2 : g.filter (fun i => isSidecar exts (st1 i)) =
      g.filter (fun i => isSidecar exts (st2 i)) :=
    List.filter_congr (fun x hx => by rw [hagree x hx])
  rw [h1, h2]

theorem processAssocGroup_frame (exts : List String) (st : Store) (g : List Nat)
    (i : Nat) (hi : i ∉ g) : processAssocGroup exts st g i = st i := by
  unfold processAssocGroup
  refine foldl_upd_frame (fun r => addAssociatedAll r (mainSubSplit exts st g).2)
    (mainSubSplit exts st g).1 st i ?_
  intro hmem
  exact hi (mainSubSplit_fst_subset exts st g i hmem)

theorem processAssocGroup_congr (exts : List String) (st1 st2 : Store) (g : List Nat)
    (hagree : ∀ j ∈ g, st1 j = st2 j) (i : Nat) (hi : i ∈ g) :
    processAssocGroup exts st1 g i = processAssocGroup exts st2 g i := by
  unfold processAssocGroup
  rw [mainSubSplit_congr exts st1 st2 g hagree]
  exact foldl_upd_agree (fun r => addAssociatedAll r (mainSubSplit exts st2 g).2)
    (mainSubSplit exts st2 g).1 (fun j => j ∈ g)
    (fun j hj => mainSubSplit_fst_subset exts st2 g j hj) st1 st2 hagree i hi

theorem processAssocGroup_apply (exts : List String) (st : Store) (g : List Nat)
    (hg : g.Nodup) (i : Nat) :
    processAssocGroup exts st g i =
      if i ∈ (mainSubSplit exts st g).1 then
        addAssociatedAll (st i) (mainSubSplit exts st g).2
      else st i := by
  unfold processAssocGroup
  exact foldl_upd_apply (fun r => addAssociatedAll r (mainSubSplit exts st g).2)
    (mainSubSplit exts st g).1 st i (mainSubSplit_fst_nodup exts st g hg)

/-- Master description of one `find_associated_files` run. -/
theorem findAssociatedFiles_apply (st : Store) (idxs : List Nat) (exts : List String)
    (hnd : idxs.Nodup) :
    ∀ i ∈ idxs, findAssociatedFiles st idxs exts i =
      if i ∈ (mainSubSplit exts st (groupOf st idxs i)).1 then
        addAssociatedAll (st i) (mainSubSplit exts st (groupOf st idxs i)).2
      else st i := by
  intro i hi
  have hgin : (assocKey st i, groupOf st idxs i) ∈ assocGroups st idxs := by
    unfold assocGroups groupOf
    rw [buildGroups_eq_groupsBy]
    exact groupsBy_mem_self _ _ i hi
  have hdisj : (assocGroups st idxs).Pairwise (fun g1 g2 => ∀ x, x ∈ g1.2 → x ∉ g2.2) := by
    unfold assocGroups
    rw [buildGroups_eq_groupsBy]
    exact groupsBy_pairwise_disjoint _ _
  have hmem : i ∈ groupOf st idxs i := by
    unfold groupOf
    exact List.mem_filter.mpr ⟨hi, by simp⟩
  have happly := (foldl_groups_apply (fun st2 g => processAssocGroup exts st2 g.2)
    (fun st2 g x hx => processAssocGroup_frame exts st2 g.2 x hx)
    (fun st1 st2 g hagree x hx => processAssocGroup_congr exts st1 st2 g.2 hagree x hx)
    (assocGroups st idxs) hdisj st).2 (assocKey st i, groupOf st idxs i) hgin i hmem
  have hres : findAssociatedFiles st idxs exts i =
      processAssocGroup exts st (groupOf st idxs i) i := happly
  have hgnodup : (groupOf st idxs i).Nodup := by
    unfold groupOf
    exact hnd.filter _
  rw [hres, processAssocGroup_apply exts st _ hgnodup i]

theorem groupOf_eq_of_mem (st : Store) (idxs : List Nat) (i j : Nat)
    (hj : j ∈ groupOf st idxs i) : groupOf st idxs j = groupOf st idxs i := by
  have hkey : assocKey st j = assocKey st i := by
    have := (List.mem_filter.mp hj).2
    simpa using this
  unfold groupOf
  exact List.filter_congr (fun x hx => by rw [hkey])

theorem eq_of_mem_length_le_one {α : Type} {l : List α} {a b : α}
    (ha : a ∈ l) (hb : b ∈ l) (h : l.length ≤ 1) : a = b := by
  by_contra hne
  have := two_le_length_of_mem_ne ha hb hne
  omega

/-- C2 (amended): on a list of distinct records with empty
`associated_files`, provided each `(directory, base name)` group holds
at most one non-sidecar record, `find_associated_files` installs a
one-level, non-cyclic, exclusive ownership: no record owns itself,
owned records own nothing, and a sidecar is owned by at most one
record.  As frozen, exclusivity fails without the at-most-one-main
proviso: every main file of a group receives every sub file, so a
group with two mains shares its sidecar (see the counterexample). -/
theorem c2_assoc_exclusive_ownership (st : Store) (idxs : List Nat) (exts : List String)
    (hnd : idxs.Nodup)
    (hfresh : ∀ i ∈ idxs, (st i).associated = [])
    (hmain1 : ∀ i ∈ idxs,
      ((groupOf st idxs i).filter (fun j => !(isSidecar exts (st j)))).length ≤ 1) :
    (∀ i ∈ idxs, i ∉ (findAssociatedFiles st idxs exts i).associated) ∧
    (∀ i ∈ idxs, ∀ j ∈ (findAssociatedFiles st idxs exts i).associated,
      j ∈ idxs ∧ (findAssociatedFiles st idxs exts j).associated = []) ∧
    (∀ i1 ∈ idxs, ∀ i2 ∈ idxs, ∀ j : Nat,
      j ∈ (findAssociatedFiles st idxs exts i1).associated →
      j ∈ (findAssociatedFiles st idxs exts i2).associated → i1 = i2) := by
  have hchar := findAssociatedFiles_apply st idxs exts hnd
  have hgnodup : ∀ i, (groupOf st idxs i).Nodup := by
    intro i
    unfold groupOf
    exact hnd.filter _
  have hassoc : ∀ i ∈ idxs, (findAssociatedFiles st idxs exts i).associated =
      if i ∈ (mainSubSplit exts st (groupOf st idxs i)).1 then
        (mainSubSplit exts st (groupOf st idxs i)).2
      else [] := by
    intro i hi
    rw [hchar i hi]
    by_cases hc : i ∈ (mainSubSplit exts st (groupOf st idxs i)).1
    · rw [if_pos hc, if_pos hc]
      unfold addAssociatedAll
      simp [hfresh i hi]
    · rw [if_neg hc, if_neg hc, hfresh i hi]
  have hout : ∀ i ∈ idxs, ∀ j : Nat,
      j ∈ (findAssociatedFiles st idxs exts i).associated →
      i ∈ (mainSubSplit exts st (groupOf st idxs i)).1 ∧
      j ∈ (mainSubSplit exts st (groupOf st idxs i)).2 := by
    intro i hi j hj
    rw [hassoc i hi] at hj
    by_cases hc : i ∈ (mainSubSplit exts st (groupOf st idxs i)).1
    · rw [if_pos hc] at hj
      exact ⟨hc, hj⟩
    · rw [if_neg hc] at hj
      simp at hj
  refine ⟨?_, ?_, ?_⟩
  · -- a record never owns itself
    intro i hi hmem
    obtain ⟨h1, h2⟩ := hout i hi i hmem
    exact mainSubSplit_not_both exts st _ (hgnodup i) i h2 h1
  · -- owned records are one level deep and own nothing
    intro i hi j hj
    obtain ⟨h1, h2⟩ := hout i hi j hj
    have hjg : j ∈ groupOf st idxs i := (mainSubSplit_snd_subset exts st _ j h2).1
    have hjidx : j ∈ idxs := by
      unfold groupOf at hjg
      exact (List.mem_filter.mp hjg).1
    have hgeq : groupOf st idxs j = groupOf st idxs i := groupOf_eq_of_mem st idxs i j hjg
    refine ⟨hjidx, ?_⟩
    rw [hassoc j hjidx, hgeq, if_neg ?_]
    exact mainSubSplit_not_both exts st _ (hgnodup i) j h2
  · -- a sidecar has at most one owner
    intro i1 hi1 i2 hi2 j h1 h2
    obtain ⟨h1a, h1b⟩ := hout i1 hi1 j h1
    obtain ⟨h2a, h2b⟩ := hout i2 hi2 j h2
    have hjg1 : j ∈ groupOf st idxs i1 := (mainSubSplit_snd_subset exts st _ j h1b).1
    have hjg2 : j ∈ groupOf st idxs i2 := (mainSubSplit_snd_subset exts st _ j h2b).1
    have hgeq : groupOf st idxs i1 = groupOf st idxs i2 := by
      rw [← groupOf_eq_of_mem st idxs i1 j hjg1, ← groupOf_eq_of_mem st idxs i2 j hjg2]
    rw [hgeq] at h1a
    have hlen : (mainSubSplit exts st (groupOf st idxs i2)).1.length ≤ 1 :=
      mainSubSplit_fst_len exts st _ (hmain1 i2 hi2)
    exact eq_of_mem_length_le_one h1a h2a hlen

/-- C2 counterexample: with two non-sidecar records in one group, the
sidecar record is installed into the `associated_files` of both, so it
is not owned by exactly one primary. -/
theorem c2_counterexample :
    ([0, 1, 2] : List Nat).Nodup ∧
    (∀ i ∈ ([0, 1, 2] : List Nat), (c2Store i).associated = []) ∧
    (0 : Nat) ≠ 1 ∧
    2 ∈ (findAssociatedFiles c2Store [0, 1, 2] ["xmp"] 0).associated ∧
    2 ∈ (findAssociatedFiles c2Store [0, 1, 2] ["xmp"] 1).associated := by
  decide

theorem c2_witness :
    (∀ i ∈ ([0, 1] : List Nat),
      i ∉ (findAssociatedFiles c2WitnessStore [0, 1] ["xmp"] i).associated) ∧
    (∀ i ∈ ([0, 1] : List Nat),
      ∀ j ∈ (findAssociatedFiles c2WitnessStore [0, 1] ["xmp"] i).associated,
      j ∈ ([0, 1] : List Nat) ∧
        (findAssociatedFiles c2WitnessStore [0, 1] ["xmp"] j).associated = []) ∧
    (∀ i1 ∈ ([0, 1] : List Nat), ∀ i2 ∈ ([0, 1] : List Nat), ∀ j : Nat,
      j ∈ (findAssociatedFiles c2WitnessStore [0, 1] ["xmp"] i1).associated →
      j ∈ (findAssociatedFiles c2WitnessStore [0, 1] ["xmp"] i2).associated →
      i1 = i2) :=
  c2_assoc_exclusive_ownership c2WitnessStore [0, 1] ["xmp"]
    (by decide) (by decide) (by decide)

theorem copyFold_spec (env : Nat → Option String) (total : Nat) (l : List Nat)
    (hnd : l.Nodup) :
    ∀ (st : Store) (processed success : Nat) (log : List (Nat × Nat × String)),
      (∀ i ∈ l, (st i).status = .pending ∧ truthyStr (st i).targetPath = true ∧
        (st i).associated = []) →
      (∀ i ∈ l, (l.foldl (copyStep env total) (st, processed, success, log)).1 i =
        copyOutcome env (st i) i) ∧
      (∀ i, i ∉ l →
        (l.foldl (copyStep env total) (st, processed, success, log)).1 i = st i) ∧
      (l.foldl (copyStep env total) (st, processed, success, log)).2.1 =
        processed + l.length ∧
      (l.foldl (copyStep env total) (st, processed, success, log)).2.2.1 =
        success + (l.filter (fun i => env i = none)).length ∧
      ∃ nl, (l.foldl (copyStep env total) (st, processed, success, log)).2.2.2 =
        log ++ nl ∧ nl.length = l.length ∧ ∀ e ∈ nl, e.2.1 = total := by
  induction l with
  | nil =>
    intro st p su lo _
    exact ⟨by simp, fun i _ => rfl, by simp, by simp, [], by simp, rfl, by simp⟩
  | cons i0 rest ih =>
    intro st p su lo hrec
    rcases List.nodup_cons.mp hnd with ⟨hi0, hndr⟩
    obtain ⟨hp, ht, ha⟩ := hrec i0 (by simp)
    have hstep : copyStep env total (st, p, su, lo) i0 =
        (updStore st i0 (copyOutcome env (st i0) i0), p + 1,
         (if env i0 = none then su + 1 else su),
         lo ++ [(p + 1, total, (st i0).originalFilename)]) := by
      unfold copyStep copyOutcome
      rw [if_pos ⟨hp, ht⟩]
      cases henv : env i0 with
      | none => simp [ha, henv]
      | some m => simp [henv]
    have hst1 : ∀ j, j ≠ i0 →
        updStore st i0 (copyOutcome env (st i0) i0) j = st j := by
      intro j hj
      simp [updStore, hj]
    have hrec1 : ∀ j ∈ rest,
        (updStore st i0 (copyOutcome env (st i0) i0) j).status = .pending ∧
        truthyStr (updStore st i0 (copyOutcome env (st i0) i0) j).targetPath = true ∧
        (updStore st i0 (copyOutcome env (st i0) i0) j).associated = [] := by
      intro j hj
      rw [hst1 j (fun he => hi0 (he ▸ hj))]
      exact hrec j (by simp [hj])
    have IH := ih hndr (updStore st i0 (copyOutcome env (st i0) i0)) (p + 1)
      (if env i0 = none then su + 1 else su)
      (lo ++ [(p + 1, total, (st i0).originalFilename)]) hrec1
    have hfold : (i0 :: rest).foldl (copyStep env total) (st, p, su, lo) =
        rest.foldl (copyStep env total)
          (updStore st i0 (copyOutcome env (st i0) i0), p + 1,
           (if env i0 = none then su + 1 else su),
           lo ++ [(p + 1, total, (st i0).originalFilename)]) := by
      rw [List.foldl_cons, hstep]
    rw [hfold]
    obtain ⟨IH1, IH2, IH3, IH4, nl, IH5, IH6, IH7⟩ := IH
    refine ⟨?_, ?_, ?_, ?_, ?_⟩
    · intro i hi
      rcases List.mem_cons.mp hi with rfl | hi2
      · rw [IH2 i hi0]
        simp [updStore]
      · rw [IH1 i hi2, hst1 i (fun he => hi0 (he ▸ hi2))]
    · intro i hi
      rw [IH2 i (fun h2 => hi (by simp [h2]))]
      exact hst1 i (fun he => hi (by simp [he]))
    · rw [IH3]
      simp only [List.length_cons]
      omega
    · rw [IH4, List.filter_cons]
      by_cases he : env i0 = none
      · rw [if_pos he]
        simp only [he, if_pos trivial, List.length_cons]
        simp [he]
        omega
      · rw [if_neg he]
        simp only [he, if_neg he]
        simp [he]
    · refine ⟨(p + 1, total, (st i0).originalFilename) :: nl, ?_, ?_, ?_⟩
      · rw [IH5, List.append_assoc]
        rfl
      · simp [IH6]
      · intro e he
        rcases List.mem_cons.mp he with rfl | he2
        · rfl
        · exact IH7 e he2

theorem truthy_ne_none {o : Option String} (h : truthyStr o = true) : o ≠ none := by
  intro hn
  rw [hn] at h
  simp [truthyStr] at h

/-- C3: given N distinct pending records with truthy target paths and
no associated files, where exactly record k's copy raises an I/O error
with message m and every other copy succeeds, `copy_files` sets the
other N-1 records to `copied`, sets record k to `error` with its
message stored, invokes the progress callback exactly N times with the
total always the initial pending count N, and returns N-1. -/
theorem c3_copy_error_isolation (env : Nat → Option String) (st : Store)
    (idxs : List Nat) (hnd : idxs.Nodup)
    (hrec : ∀ i ∈ idxs, (st i).status = .pending ∧
      truthyStr (st i).targetPath = true ∧ (st i).associated = [])
    (k : Nat) (hk : k ∈ idxs) (m : String) (hm : m ≠ "")
    (henv : ∀ i ∈ idxs, env i = if i = k then some m else none) :
    (∀ i ∈ idxs, i ≠ k → ((copyFiles env st idxs).1 i).status = .copied) ∧
    ((copyFiles env st idxs).1 k).status = .error ∧
    ((copyFiles env st idxs).1 k).errorMessage = some m ∧
    (copyFiles env st idxs).2.2.length = idxs.length ∧
    (∀ e ∈ (copyFiles env st idxs).2.2, e.2.1 = idxs.length) ∧
    (copyFiles env st idxs).2.1 = idxs.length - 1 := by
  have htotal : (idxs.filter
      (fun i => (st i).status = .pending ∧ (st i).targetPath ≠ none)).length =
      idxs.length := by
    rw [List.filter_eq_self.mpr]
    intro a hazb
    obtain ⟨h1, h2, -⟩ := hrec a hazb
    simp only [decide_eq_true_eq]
    exact ⟨h1, truthy_ne_none h2⟩
  have HS := copyFold_spec env
    (idxs.filter (fun i => (st i).status = .pending ∧ (st i).targetPath ≠ none)).length
    idxs hnd st 0 0 [] hrec
  obtain ⟨H1, H2, H3, H4, nl, H5, H6, H7⟩ := HS
  have hcf1 : (copyFiles env st idxs).1 =
      (idxs.foldl (copyStep env (idxs.filter
        (fun i => (st i).status = .pending ∧ (st i).targetPath ≠ none)).length)
        (st, 0, 0, [])).1 := rfl
  have hcf2 : (copyFiles env st idxs).2.1 =
      (idxs.foldl (copyStep env (idxs.filter
        (fun i => (st i).status = .pending ∧ (st i).targetPath ≠ none)).length)
        (st, 0, 0, [])).2.2.1 := rfl
  have hcf3 : (copyFiles env st idxs).2.2 =
      (idxs.foldl (copyStep env (idxs.filter
        (fun i => (st i).status = .pending ∧ (st i).targetPath ≠ none)).length)
        (st, 0, 0, [])).2.2.2 := rfl
  have hfiltk : (idxs.filter (fun i => env i = none)).length = idxs.length - 1 := by
    obtain ⟨l1, l2, hdec⟩ := List.append_of_mem hk
    have hnd2 := hdec ▸ hnd
    rcases List.nodup_append.mp hnd2 with ⟨-, hndR, hdisj⟩
    have hknotl1 : k ∉ l1 := fun hin => hdisj hin (by simp)
    have hknotl2 : k ∉ l2 := (List.nodup_cons.mp hndR).1
    rw [hdec, List.filter_append, List.filter_cons]
    have hf1 : l1.filter (fun i => env i = none) = l1 := by
      rw [List.filter_eq_self.mpr]
      intro a hal
      have hane : a ≠ k := fun he => hknotl1 (he ▸ hal)
      rw [henv a (by rw [hdec]; simp [hal]), if_neg hane]
      simp
    have hf2 : l2.filter (fun i => env i = none) = l2 := by
      rw [List.filter_eq_self.mpr]
      intro a hal
      have hane : a ≠ k := fun he => hknotl2 (he ▸ hal)
      rw [henv a (by rw [hdec]; simp [hal]), if_neg hane]
      simp
    have hek : env k = some m := by
      rw [henv k hk, if_pos rfl]
    rw [hf1, hf2]
    simp only [hek]
    simp
  refine ⟨?_, ?_, ?_, ?_, ?_, ?_⟩
  · intro i hi hik
    rw [hcf1, H1 i hi]
    unfold copyOutcome
    rw [henv i hi, if_neg hik]
    rfl
  · rw [hcf1, H1 k hk]
    unfold copyOutcome
    rw [henv k hk, if_pos rfl]
    rfl
  · rw [hcf1, H1 k hk]
    unfold copyOutcome
    rw [henv k hk, if_pos rfl]
    rw [setStatus_errorMessage_of_truthy _ _ _ (by simp [truthyStr, hm])]
  · rw [hcf3, H5]
    simpa using H6
  · intro e he
    rw [hcf3, H5] at he
    simp only [List.nil_append] at he
    rw [H7 e he, htotal]
  · rw [hcf2, H4, hfiltk]
    simp

theorem c3_witness :
    (∀ i ∈ ([0, 1] : List Nat), i ≠ 0 →
      ((copyFiles c3Env twoTargetStore [0, 1]).1 i).status = .copied) ∧
    ((copyFiles c3Env twoTargetStore [0, 1]).1 0).status = .error ∧
    ((copyFiles c3Env twoTargetStore [0, 1]).1 0).errorMessage = some "copy failed" ∧
    (copyFiles c3Env twoTargetStore [0, 1]).2.2.length = ([0, 1] : List Nat).length ∧
    (∀ e ∈ (copyFiles c3Env twoTargetStore [0, 1]).2.2,
      e.2.1 = ([0, 1] : List Nat).length) ∧
    (copyFiles c3Env twoTargetStore [0, 1]).2.1 = ([0, 1] : List Nat).length - 1 :=
  c3_copy_error_isolation c3Env twoTargetStore [0, 1] (by decide) (by decide)
    0 (by decide) "copy failed" (by decide) (by decide)

/-- C8: the generated filename always ends in a dot followed by the
record's original extension, and when every element renders the empty
string the part before the dot is the literal "file". -/
theorem c8_filename_extension (r : FileInfo) (els : List PathElement) :
    (∃ stem, (generateFilename r els).1 = stem ++ "." ++ r.originalExtension) ∧
    ((∀ e ∈ els, (elemGenerate e r).1 = "") →
      (generateFilename r els).1 = "file" ++ "." ++ r.originalExtension) := by
  constructor
  · exact ⟨if String.join (els.foldl (filenameStep r) ([], [])).1 = "" then "file"
      else String.join (els.foldl (filenameStep r) ([], [])).1, rfl⟩
  · intro hall
    have haux : ∀ (l : List PathElement) (acc : List String × List PathElement),
        (∀ e ∈ l, (elemGenerate e r).1 = "") →
        (l.foldl (filenameStep r) acc).1 = acc.1 := by
      intro l
      induction l with
      | nil => intro acc _; rfl
      | cons e l2 ih =>
        intro acc hl
        rw [List.foldl_cons, ih _ (fun e2 he2 => hl e2 (by simp [he2]))]
        unfold filenameStep
        rw [if_neg (by simp [hl e (by simp)])]
    simp only [generateFilename]
    rw [haux els ([], []) hall]
    simp [String.join]

theorem c8_witness :
    (generateFilename (mkFileInfo "/s/a.jpg" "jpg" none dt2024)
      [PathElement.literal ""]).1 =
      "file" ++ "." ++ (mkFileInfo "/s/a.jpg" "jpg" none dt2024).originalExtension :=
  (c8_filename_extension (mkFileInfo "/s/a.jpg" "jpg" none dt2024)
    [PathElement.literal ""]).2 (by decide)

theorem ltPriority_asymm (a b : BaseFilter) (h : ltPriority a b = true) :
    ltPriority b a = false := by
  simp only [ltPriority, decide_eq_true_eq] at h
  simp only [ltPriority, decide_eq_false_iff_not]
  omega

theorem ltPriority_negtrans (a b c : BaseFilter) (h1 : ltPriority a b = false)
    (h2 : ltPriority b c = false) : ltPriority a c = false := by
  simp only [ltPriority, decide_eq_false_iff_not] at h1 h2 ⊢
  omega

theorem buildChain_perm_aux (fs : List BaseFilter) :
    ∀ c, (fs.foldl addFilter c).Perm (c ++ fs.filter (fun f => f.enabled)) := by
  induction fs with
  | nil => intro c; simp
  | cons f fs ih =>
    intro c
    rw [List.foldl_cons]
    refine (ih (addFilter c f)).trans ?_
    by_cases he : f.enabled
    · unfold addFilter
      rw [if_pos he, List.filter_cons, if_pos (by simpa using he)]
      refine (List.Perm.append_right _ (perm_sortBy ltPriority (c ++ [f]))).trans ?_
      rw [List.append_assoc]
      refine List.Perm.append_left c ?_
      simp
    · unfold addFilter
      rw [if_neg he, List.filter_cons, if_neg (by simpa using he)]

theorem buildChain_sorted_aux (fs : List BaseFilter) :
    ∀ c, c.Pairwise (fun a b => ltPriority b a = false) →
      (fs.foldl addFilter c).Pairwise (fun a b => ltPriority b a = false) := by
  induction fs with
  | nil => exact fun c hc => hc
  | cons f fs ih =>
    intro c hc
    rw [List.foldl_cons]
    refine ih (addFilter c f) ?_
    unfold addFilter
    by_cases he : f.enabled
    · rw [if_pos he]
      exact pairwise_sortBy ltPriority ltPriority_asymm ltPriority_negtrans _
    · rw [if_neg he]
      exact hc

theorem buildChain_stable_aux (fs : List BaseFilter) (p : Int) :
    ∀ c, (fs.foldl addFilter c).filter (fun f => f.priority = p) =
      c.filter (fun f => f.priority = p) ++
        (fs.filter (fun f => f.enabled)).filter (fun f => f.priority = p) := by
  induction fs with
  | nil => intro c; simp
  | cons f fs ih =>
    intro c
    rw [List.foldl_cons, ih (addFilter c f)]
    unfold addFilter
    by_cases he : f.enabled
    · rw [if_pos he, List.filter_cons, if_pos (by simpa using he)]
      rw [filter_sortBy ltPriority _ _ ?_]
      · rw [List.filter_append]
        by_cases hp : f.priority = p
        · rw [List.filter_cons, if_pos (by simpa using hp),
            List.filter_cons, if_pos (by simpa using hp)]
          simp
        · rw [List.filter_cons, if_neg (by simpa using hp),
            List.filter_cons, if_neg (by simpa using hp)]
          simp
      · intro a b ha hb
        simp only [decide_eq_true_eq] at ha hb
        simp only [ltPriority, decide_eq_false_iff_not]
        omega
    · rw [if_neg he, List.filter_cons, if_neg (by simpa using he)]

theorem shouldIncludeAux_append_pass (r : FileInfo) (l1 : List BaseFilter)
    (hpass : ∀ g ∈ l1, (g.checkFile r).«include» = true) :
    ∀ (md : List (String × Md)) (l2 : List BaseFilter),
      shouldIncludeAux r (l1 ++ l2) md = shouldIncludeAux r l2
        (l1.foldl (fun md f => dictSet md f.filterId (f.checkFile r).metadata) md) := by
  induction l1 with
  | nil => intro md l2; rfl
  | cons f l1 ih =>
    intro md l2
    rw [List.cons_append]
    show (if (f.checkFile r).«include» = false then _ else _) = _
    rw [if_neg (by rw [hpass f (by simp)]; simp)]
    rw [ih (fun g hg => hpass g (by simp [hg])) _ l2]
    rfl

theorem shouldIncludeAux_all_pass (r : FileInfo) (l : List BaseFilter)
    (hpass : ∀ g ∈ l, (g.checkFile r).«include» = true) (md : List (String × Md)) :
    shouldIncludeAux r l md = (true, none,
      l.foldl (fun md f => dictSet md f.filterId (f.checkFile r).metadata) md) := by
  have h := shouldIncludeAux_append_pass r l hpass md []
  rw [List.append_nil] at h
  rw [h]
  rfl

/-- C6: the chain built by `add_filter` holds exactly the enabled
filters, sorted ascending by priority with registration order
preserved among equal priorities, and `should_include_file` returns
the first rejection fail-fast — with that filter's reason and the
metadata of exactly the filters evaluated up to and including it,
evaluating no later filter — or, when no filter rejects, inclusion
with the merged metadata of all filters. -/
theorem c6_filter_chain_spec (fs : List BaseFilter) (r : FileInfo) :
    (buildChain fs).Pairwise (fun a b => a.priority ≤ b.priority) ∧
    (buildChain fs).Perm (fs.filter (fun f => f.enabled)) ∧
    (∀ p : Int, (buildChain fs).filter (fun f => f.priority = p) =
      (fs.filter (fun f => f.enabled)).filter (fun f => f.priority = p)) ∧
    (∀ pre f post, buildChain fs = pre ++ f :: post →
      (∀ g ∈ pre, (g.checkFile r).«include» = true) →
      (f.checkFile r).«include» = false →
      shouldIncludeFile (buildChain fs) r =
        (false, (f.checkFile r).reason, chainMeta r (pre ++ [f])) ∧
      shouldIncludeFile (buildChain fs) r = shouldIncludeFile (pre ++ [f]) r) ∧
    ((∀ g ∈ buildChain fs, (g.checkFile r).«include» = true) →
      shouldIncludeFile (buildChain fs) r = (true, none, chainMeta r (buildChain fs))) := by
  refine ⟨?_, ?_, ?_, ?_, ?_⟩
  · have h := buildChain_sorted_aux fs [] (by simp)
    refine h.imp ?_
    intro a b hab
    simp only [ltPriority, decide_eq_false_iff_not] at hab
    omega
  · simpa using buildChain_perm_aux fs []
  · intro p
    have h := buildChain_stable_aux fs p []
    simpa using h
  · intro pre f post hdec hpass hrej
    have heval : shouldIncludeFile (buildChain fs) r =
        (false, (f.checkFile r).reason, chainMeta r (pre ++ [f])) := by
      unfold shouldIncludeFile
      rw [hdec, shouldIncludeAux_append_pass r pre hpass [] (f :: post)]
      simp only [shouldIncludeAux]
      rw [if_pos hrej]
      unfold chainMeta
      rw [List.foldl_append]
      rfl
    refine ⟨heval, ?_⟩
    rw [heval]
    unfold shouldIncludeFile
    rw [shouldIncludeAux_append_pass r pre hpass [] [f]]
    simp only [shouldIncludeAux]
    rw [if_pos hrej]
    unfold chainMeta
    rw [List.foldl_append]
    rfl
  · intro hpass
    unfold shouldIncludeFile chainMeta
    exact shouldIncludeAux_all_pass r _ hpass []

theorem c6_witness :
    shouldIncludeFile (buildChain [wFilterB, wFilterA]) wRec =
      (false, (wFilterB.checkFile wRec).reason, chainMeta wRec ([wFilterA] ++ [wFilterB])) :=
  ((c6_filter_chain_spec [wFilterB, wFilterA] wRec).2.2.2.1 [wFilterA] wFilterB []
    rfl
    (fun g hg => by
      rcases List.mem_singleton.mp hg with rfl
      rfl)
    rfl).1

/-- C7: a record whose date cannot be determined (no parseable
metadata date, modification-time source disabled) is included; the
bounds are inclusive; and the 2024 date-range filter excludes the
2020 EXIF record with a reason naming the file date and the start
bound. -/
theorem c7_date_range_spec :
    (∀ (flt : DateRangeFilter) (r : FileInfo),
      flt.extractMetadataDate r = none → flt.useFileModifiedDate = false →
      (flt.checkFile r).«include» = true) ∧
    (∀ (flt : DateRangeFilter) (r : FileInfo) (fd : PyDateTime),
      flt.getFileDate r = some fd →
      (∀ sd, flt.startDate = some sd → dtLt fd sd = false) →
      (∀ ed, flt.endDate = some ed → dtLt ed fd = false) →
      (flt.checkFile r).«include» = true) ∧
    (∃ flt, DateRangeFilter.ofConfig
        { startDate := some "2024-01-01", endDate := some "2024-12-31" } = some flt ∧
      (flt.checkFile c7Rec).«include» = false ∧
      (flt.checkFile c7Rec).reason =
        some "File date 2020-12-01 is before start date 2024-01-01") := by
  refine ⟨?_, ?_, ?_⟩
  · intro flt r hext hmod
    have hgfd : flt.getFileDate r = none := by
      unfold DateRangeFilter.getFileDate
      by_cases hc : flt.useMetadataDate = true ∧ r.metadata ≠ []
      · rw [if_pos hc, hext]
        simp [hmod]
      · rw [if_neg hc]
        simp [hmod]
    unfold DateRangeFilter.checkFile
    rw [hgfd]
  · intro flt r fd hgfd hstart hend
    unfold DateRangeFilter.checkFile
    rw [hgfd]
    cases hs : flt.startDate with
    | none =>
      cases he : flt.endDate with
      | none => simp
      | some ed => simp [hend ed he]
    | some sd =>
      cases he : flt.endDate with
      | none => simp [hstart sd hs]
      | some ed => simp [hstart sd hs, hend ed he]
  · refine ⟨⟨some ⟨2024, 1, 1, 0, 0, 0⟩, some ⟨2024, 12, 31, 0, 0, 0⟩,
      true, false, "datetime"⟩, by decide, by decide, by decide⟩

theorem foldl_congr_mem {α β : Type} (f g : β → α → β) :
    ∀ (l : List α) (b : β), (∀ a ∈ l, ∀ acc, f acc a = g acc a) →
      l.foldl f b = l.foldl g b
  | [], _, _ => rfl
  | a :: l, b, h => by
    simp only [List.foldl_cons]
    rw [h a (by simp)]
    exact foldl_congr_mem f g l _ (fun x hx acc => h x (by simp [hx]) acc)

theorem calculateHash_snd_only_hash (digest : HashAlg → String → String)
    (alg : String) (r : FileInfo) :
    (calculateHash digest alg r).2 =
      { r with hash := ((calculateHash digest alg r).2).hash } := by
  unfold calculateHash
  by_cases h : truthyStr r.hash
  · simp [h]
  · simp [h]

/-- Invariant of the `check_duplicates` fold: each visited truthy-target
record gets its hash cached (no other field or record changes), and the
groups are exactly the dict grouping of the truthy-target records by the
hash `calculate_hash` returns for them, in discovery order. -/
theorem dupFold_spec (digest : HashAlg → String → String) (alg : String)
    (idxs : List Nat) (st : Store) (gs : List (String × List Nat))
    (hnd : idxs.Nodup) :
    (∀ j, (idxs.foldl (dupStep digest alg) (st, gs)).1 j =
      if j ∈ idxs ∧ hasTarget (st j) = true
      then (calculateHash digest alg (st j)).2 else st j) ∧
    (idxs.foldl (dupStep digest alg) (st, gs)).2 =
      (idxs.filter (fun i => hasTarget (st i))).foldl
        (fun acc i => upsert acc ((calculateHash digest alg (st i)).1) i) gs := by
  induction idxs generalizing st gs with
  | nil => simp
  | cons i l ih =>
    have hil : i ∉ l := (List.nodup_cons.mp hnd).1
    have hndl : l.Nodup := (List.nodup_cons.mp hnd).2
    by_cases hti : hasTarget (st i) = true
    · have hstep : dupStep digest alg (st, gs) i =
          (updStore st i (calculateHash digest alg (st i)).2,
           upsert gs (calculateHash digest alg (st i)).1 i) := by
        unfold dupStep
        simp [hti]
      have hagree : ∀ j ∈ l,
          updStore st i (calculateHash digest alg (st i)).2 j = st j := by
        intro j hj
        unfold updStore
        rw [if_neg]
        intro hji
        exact hil (hji ▸ hj)
      obtain ⟨ih1, ih2⟩ := ih (updStore st i (calculateHash digest alg (st i)).2)
        (upsert gs (calculateHash digest alg (st i)).1 i) hndl
      constructor
      · intro j
        rw [List.foldl_cons, hstep, ih1]
        by_cases hji : j = i
        · subst hji
          have hjl : j ∉ l := hil
          simp only [hjl, false_and, if_false]
          simp only [List.mem_cons, true_or, hti, and_self, if_true]
          unfold updStore
          simp
        · have hu : updStore st i (calculateHash digest alg (st i)).2 j = st j := by
            unfold updStore
            rw [if_neg hji]
          rw [hu]
          by_cases hjl : j ∈ l
          · simp only [hjl, List.mem_cons, hji, false_or, hjl, true_and]
          · simp [hjl, hji]
      · rw [List.foldl_cons, hstep, ih2]
        have hf : l.filter (fun i2 =>
            hasTarget (updStore st i (calculateHash digest alg (st i)).2 i2)) =
            l.filter (fun i2 => hasTarget (st i2)) := by
          apply List.filter_congr
          intro j hj
          rw [hagree j hj]
        rw [hf]
        have hfold : (l.filter (fun i2 => hasTarget (st i2))).foldl
            (fun acc i2 => upsert acc
              ((calculateHash digest alg
                (updStore st i (calculateHash digest alg (st i)).2 i2)).1) i2)
              (upsert gs (calculateHash digest alg (st i)).1 i) =
            (l.filter (fun i2 => hasTarget (st i2))).foldl
            (fun acc i2 => upsert acc ((calculateHash digest alg (st i2)).1) i2)
              (upsert gs (calculateHash digest alg (st i)).1 i) := by
          apply foldl_congr_mem
          intro j hj acc
          rw [hagree j (List.mem_of_mem_filter hj)]
        rw [hfold]
        have hcf : (i :: l).filter (fun i2 => hasTarget (st i2)) =
            i :: l.filter (fun i2 => hasTarget (st i2)) := by
          rw [List.filter_cons]
          simp [hti]
        rw [hcf, List.foldl_cons]
    · have hstep : dupStep digest alg (st, gs) i = (st, gs) := by
        unfold dupStep
        simp [hti]
      obtain ⟨ih1, ih2⟩ := ih st gs hndl
      constructor
      · intro j
        rw [List.foldl_cons, hstep, ih1]
        by_cases hji : j = i
        · subst hji
          have hjl : j ∉ l := hil
          simp [hjl, hti]
        · by_cases hjl : j ∈ l
          · simp [hjl, hji]
          · simp [hjl, hji]
      · rw [List.foldl_cons, hstep, ih2]
        have hcf : (i :: l).filter (fun i2 => hasTarget (st i2)) =
            l.filter (fun i2 => hasTarget (st i2)) := by
          rw [List.filter_cons]
          simp [hti]
        rw [hcf]

/-- C9: `check_duplicates` considers exactly the records whose target
path is set (truthy), groups them by the hash `calculate_hash` returns,
and keeps only groups with more than one member; records outside the
input list or with a falsy target path are untouched, and no field other
than the cached hash ever changes on any record. -/
theorem c9_check_duplicates_spec (digest : HashAlg → String → String)
    (alg : String) (st : Store) (idxs : List Nat) (hnd : idxs.Nodup) :
    (∀ j, j ∉ idxs ∨ hasTarget (st j) = false →
      (checkDuplicates digest alg st idxs).1 j = st j) ∧
    (∀ j, (checkDuplicates digest alg st idxs).1 j =
      { st j with hash := ((checkDuplicates digest alg st idxs).1 j).hash }) ∧
    (checkDuplicates digest alg st idxs).2 =
      (buildGroups (fun i => (calculateHash digest alg (st i)).1)
        (idxs.filter (fun i => hasTarget (st i)))).filter
        (fun g => 1 < g.2.length) := by
  obtain ⟨h1, h2⟩ := dupFold_spec digest alg idxs st [] hnd
  refine ⟨?_, ?_, ?_⟩
  · intro j hj
    show (idxs.foldl (dupStep digest alg) (st, [])).1 j = st j
    rw [h1 j]
    rcases hj with hj | hj
    · rw [if_neg]
      intro hc
      exact hj hc.1
    · rw [if_neg]
      intro hc
      rw [hj] at hc
      exact Bool.false_ne_true hc.2
  · intro j
    show (idxs.foldl (dupStep digest alg) (st, [])).1 j =
      { st j with hash := ((idxs.foldl (dupStep digest alg) (st, [])).1 j).hash }
    rw [h1 j]
    by_cases hc : j ∈ idxs ∧ hasTarget (st j) = true
    · rw [if_pos hc]
      exact calculateHash_snd_only_hash digest alg (st j)
    · rw [if_neg hc]
  · show (idxs.foldl (dupStep digest alg) (st, [])).2.filter
        (fun g => 1 < g.2.length) = _
    rw [h2]
    rfl

theorem c9_witness :
    ([0, 1, 2] : List Nat).Nodup ∧
    ((∀ j, j ∉ ([0, 1, 2] : List Nat) ∨ hasTarget (c9Store j) = false →
      (checkDuplicates c9Digest "sha256" c9Store [0, 1, 2]).1 j = c9Store j) ∧
    (∀ j, (checkDuplicates c9Digest "sha256" c9Store [0, 1, 2]).1 j =
      { c9Store j with
        hash := ((checkDuplicates c9Digest "sha256" c9Store [0, 1, 2]).1 j).hash }) ∧
    (checkDuplicates c9Digest "sha256" c9Store [0, 1, 2]).2 =
      (buildGroups (fun i => (calculateHash c9Digest "sha256" (c9Store i)).1)
        (([0, 1, 2] : List Nat).filter (fun i => hasTarget (c9Store i)))).filter
        (fun g => 1 < g.2.length)) :=
  ⟨by decide, c9_check_duplicates_spec c9Digest "sha256" c9Store [0, 1, 2] (by decide)⟩

/-- C10: `calculate_hash` returns the cached digest unchanged whenever a
truthy hash is cached (whatever the algorithm argument); on a cache miss
it computes the digest for the algorithm named (looked up
case-insensitively, any unrecognized name falling back to sha256) and
caches it, so a second call with a different algorithm still returns the
first digest. -/
theorem c10_calculate_hash_cache (digest : HashAlg → String → String)
    (alg alg2 : String) (r : FileInfo) :
    (truthyStr r.hash = true →
      calculateHash digest alg r = (r.hash.getD "", r)) ∧
    (truthyStr r.hash = false →
      calculateHash digest alg r =
        (digest (parseAlg alg) r.originalPath,
         { r with hash := some (digest (parseAlg alg) r.originalPath) })) ∧
    (truthyStr r.hash = false → digest (parseAlg alg) r.originalPath ≠ "" →
      calculateHash digest alg2 (calculateHash digest alg r).2 =
        ((calculateHash digest alg r).1, (calculateHash digest alg r).2)) ∧
    (strLower alg = "md5" → parseAlg alg = HashAlg.md5) ∧
    (strLower alg = "sha1" → parseAlg alg = HashAlg.sha1) ∧
    (strLower alg ≠ "md5" → strLower alg ≠ "sha1" →
      parseAlg alg = HashAlg.sha256) := by
  refine ⟨?_, ?_, ?_, ?_, ?_, ?_⟩
  · intro h
    unfold calculateHash
    rw [if_pos h]
  · intro h
    unfold calculateHash
    rw [if_neg (by simp [h])]
  · intro h hne
    have hfst : calculateHash digest alg r =
        (digest (parseAlg alg) r.originalPath,
         { r with hash := some (digest (parseAlg alg) r.originalPath) }) := by
      unfold calculateHash
      rw [if_neg (by simp [h])]
    rw [hfst]
    unfold calculateHash
    rw [if_pos (by simp [truthyStr, hne])]
    simp
  · intro h
    unfold parseAlg
    rw [h]
    decide
  · intro h
    unfold parseAlg
    rw [h]
    decide
  · intro h h2
    unfold parseAlg
    rw [if_neg h, if_neg h2]

theorem c10_witness :
    truthyStr c10Rec.hash = false ∧
    c10Digest (parseAlg "MD5") c10Rec.originalPath ≠ "" ∧
    calculateHash c10Digest "sha1" (calculateHash c10Digest "MD5" c10Rec).2 =
      ((calculateHash c10Digest "MD5" c10Rec).1,
       (calculateHash c10Digest "MD5" c10Rec).2) :=
  ⟨by decide, by decide,
   (c10_calculate_hash_cache c10Digest "MD5" "sha1" c10Rec).2.2.1
     (by decide) (by decide)⟩

theorem c7_witness :
    c7Flt.extractMetadataDate c7NoDateRec = none ∧
    c7Flt.useFileModifiedDate = false ∧
    (c7Flt.checkFile c7NoDateRec).«include» = true :=
  ⟨by decide, by decide,
   c7_date_range_spec.1 c7Flt c7NoDateRec (by decide) (by decide)⟩
